import Mathlib

/-!
Verification of the pygear3dgen repository: a gear mesh generator
(`gear3dgen.py`) built on a minimal Wavefront OBJ mesh builder
(`wavefront.py`).

The embedding models Python floats as rationals (`ℚ`).  The floating
point library primitives `math.pi`, `math.cos`, `math.sin` are
abstracted as a parameter structure `pymath`, since IEEE-754 values are
not faithfully representable; all claims under verification are
independent of the concrete values these primitives take.  Python's
`round(x, nd)` (decimal rounding of a float) is modelled by `pyround`
as exact decimal rounding on `ℚ`; the claims do not depend on the
half-way tie-breaking mode.  File-system writes performed by `save` are
outside the embedding: `save` is modelled as returning the builder
state (unchanged, as in the source, which never assigns to `self`)
together with the structured list of emitted lines.
-/

/-- Decimal rounding to `nd` places, modelling Python `round(float(x), nd)`
(the exact IEEE tie-breaking of the source is abstracted; no claim
depends on it). -/
def pyround (nd : ℕ) (q : ℚ) : ℚ :=
  ((q * (10 : ℚ) ^ nd + 1 / 2).floor : ℚ) / (10 : ℚ) ^ nd

theorem pyround_eq_round (nd : ℕ) (q : ℚ) :
    pyround nd q = ((round (q * (10 : ℚ) ^ nd) : ℤ) : ℚ) / (10 : ℚ) ^ nd := by
  have h : (q * (10 : ℚ) ^ nd + 1 / 2).floor = round (q * (10 : ℚ) ^ nd) := by
    rw [round_eq, Rat.floor_def', ← Rat.floor_def]
  rw [pyround, h]

/-- Rounding applied to a coordinate triple, as `addvertex` does to its
three arguments. -/
def roundPoint (nd : ℕ) (p : ℚ × ℚ × ℚ) : ℚ × ℚ × ℚ :=
  (pyround nd p.1, pyround nd p.2.1, pyround nd p.2.2)

/-- Position of the first occurrence of `a`, modelling Python `list.index`
(which performs a left-to-right linear scan). -/
def listIndex {α : Type} [DecidableEq α] (a : α) : List α → ℕ
  | [] => 0
  | b :: t => if b = a then 0 else listIndex a t + 1

/-- State of the `wavefront` builder class: the ordered vertex list, the
lookup set (`verticeset`, kept as a list used as a set), the face list,
and the two construction-time settings. -/
structure wavefront where
  vertices : List (ℚ × ℚ × ℚ)
  verticeset : List (ℚ × ℚ × ℚ)
  faces : List (ℕ × ℕ × ℕ)
  doubleface : Bool
  crounding : ℕ
deriving DecidableEq

/-- The `wavefront.__init__` constructor: empty collections, configured
`doubleface` and `crounding`. -/
def wavefront.init (doubleface : Bool) (crounding : ℕ) : wavefront :=
  ⟨[], [], [], doubleface, crounding⟩

/-- The `addvertex` method: round the three coordinates, append the
triple to `vertices` and `verticeset` when the rounded triple is not
yet in the set, and return `self.vertices.index(...)` of the triple. -/
def wavefront.addvertex (w : wavefront) (x y z : ℚ) : wavefront × ℕ :=
  let p := (pyround w.crounding x, pyround w.crounding y, pyround w.crounding z)
  let w' := if p ∈ w.verticeset then w
            else { w with vertices := w.vertices ++ [p], verticeset := p :: w.verticeset }
  (w', listIndex p w'.vertices)

/-- Number of list-cell comparisons performed by the `self.vertices.index(...)`
call inside `addvertex`: the scan inspects every cell up to and
including the first occurrence of the rounded triple. -/
def wavefront.addvertexCost (w : wavefront) (x y z : ℚ) : ℕ :=
  listIndex (pyround w.crounding x, pyround w.crounding y, pyround w.crounding z)
    (w.addvertex x y z).1.vertices + 1

/-- Dynamically-typed Python values reaching `addface`/`addquad`: a
number or a sequence (tuple/list) of values. -/
inductive PyVal where
  | num (q : ℚ)
  | seq (l : List PyVal)

/-- Python exceptions raised by the builder: `ReferenceError` (the
source's choice for the invalid-argument-count failure the spec calls
`InvalidArgumentCount`) and `TypeError` (raised by `float(...)` or
tuple unpacking on an argument of the wrong shape). -/
inductive PyErr where
  | referenceError
  | typeError
deriving DecidableEq

/-- Python `float(v)`: succeeds on numbers, raises `TypeError` on sequences. -/
def pyfloat : PyVal → Except PyErr ℚ
  | .num q => .ok q
  | .seq _ => .error .typeError

/-- Python `tuple(v)`: succeeds on sequences, raises `TypeError` on numbers. -/
def pytuple : PyVal → Except PyErr (List PyVal)
  | .seq l => .ok l
  | .num _ => .error .typeError

/-- The call `self.addvertex(*args[d])` made by `addface`: unpacking the
normalized tuple must yield exactly three numbers; `round(float(_))` is
applied to all three before any state mutation, so a `TypeError` leaves
the builder unchanged. -/
def wavefront.addvertexArgs (w : wavefront) (args : List PyVal) :
    wavefront × Except PyErr ℕ :=
  match args with
  | [a, b, c] =>
    match pyfloat a, pyfloat b, pyfloat c with
    | .ok x, .ok y, .ok z =>
      let r := w.addvertex x y z
      (r.1, .ok r.2)
    | _, _, _ => (w, .error .typeError)
  | _ => (w, .error .typeError)

/-- The 9-argument condensation in `addface`: nine positional arguments
are regrouped into three consecutive triples (of the raw argument
objects, whatever they are, exactly as the source's tuple literals do). -/
def condense9 : List PyVal → List PyVal
  | [a, b, c, d, e, f, g, h, i] =>
    [.seq [a, b, c], .seq [d, e, f], .seq [g, h, i]]
  | l => l

/-- The 12-argument condensation in `addquad`. -/
def condense12 : List PyVal → List PyVal
  | [a, b, c, d, e, f, g, h, i, j, k, m] =>
    [.seq [a, b, c], .seq [d, e, f], .seq [g, h, i], .seq [j, k, m]]
  | l => l

/-- The `addface` method.  Mirrors the source: condense when nine
arguments were given; raise `ReferenceError` unless exactly three
remain; normalize all three with `tuple(...)`; resolve the three
vertices with `addvertex` (mutating state as it goes, so a late
`TypeError` leaves a partially extended vertex table, as in Python);
append the face, and its reverse when `doubleface` is set.  The second
component records the exception, `none` meaning normal return. -/
def wavefront.addface (w : wavefront) (args0 : List PyVal) :
    wavefront × Option PyErr :=
  let args := if args0.length = 9 then condense9 args0 else args0
  match args with
  | [p1, p2, p3] =>
    match pytuple p1, pytuple p2, pytuple p3 with
    | .ok l1, .ok l2, .ok l3 =>
      match w.addvertexArgs l1 with
      | (w1, .ok i1) =>
        match w1.addvertexArgs l2 with
        | (w2, .ok i2) =>
          match w2.addvertexArgs l3 with
          | (w3, .ok i3) =>
            if w3.doubleface then
              ({ w3 with faces := w3.faces ++ [(i1, i2, i3), (i3, i2, i1)] }, none)
            else
              ({ w3 with faces := w3.faces ++ [(i1, i2, i3)] }, none)
          | (w3, .error e) => (w3, some e)
        | (w2, .error e) => (w2, some e)
      | (w1, .error e) => (w1, some e)
    | _, _, _ => (w, some .typeError)
  | _ => (w, some .referenceError)

/-- The `addquad` method: condense twelve scalars into four triples,
raise `ReferenceError` unless exactly four remain, then emit the two
triangles `(p1,p2,p3)` and `(p1,p3,p4)` through `addface`. -/
def wavefront.addquad (w : wavefront) (args0 : List PyVal) :
    wavefront × Option PyErr :=
  let args := if args0.length = 12 then condense12 args0 else args0
  match args with
  | [p1, p2, p3, p4] =>
    match w.addface [p1, p2, p3] with
    | (w1, none) => w1.addface [p1, p3, p4]
    | (w1, some e) => (w1, some e)
  | _ => (w, some .referenceError)

/-- One line of the emitted OBJ text, structured: the `o mainobject`
header, a `v x y z` vertex line (carrying the exact numeric values the
source interpolates into the string), the `s off` directive, and an
`f i j k` face line carrying the three 1-based operands. -/
inductive ObjLine where
  | header
  | v (x y z : ℚ)
  | soff
  | f (a b c : ℕ)
deriving DecidableEq

/-- The `save` method.  The source assembles the line list from
`self.vertices` (each coordinate transformed as `vt*zoom+offset`
per axis) and `self.faces` (each stored index plus one) and never
mutates `self`; the file write controlled by `returnonly` is outside
the embedding.  Returned: the (unchanged) state and the lines. -/
def wavefront.save (w : wavefront) (zoom offset : ℚ × ℚ × ℚ)
    (returnonly : Bool) : wavefront × List ObjLine :=
  let lines := [ObjLine.header]
    ++ w.vertices.map (fun vt =>
        ObjLine.v (vt.1 * zoom.1 + offset.1) (vt.2.1 * zoom.2.1 + offset.2.1)
          (vt.2.2 * zoom.2.2 + offset.2.2))
    ++ [ObjLine.soff]
    ++ w.faces.map (fun tr => ObjLine.f (tr.1 + 1) (tr.2.1 + 1) (tr.2.2 + 1))
  (w, lines)

/-! ### Basic facts about `listIndex` (Python `list.index`) -/

theorem listIndex_lt_length {α : Type} [DecidableEq α] {a : α} :
    ∀ {l : List α}, a ∈ l → listIndex a l < l.length := by
  intro l h
  induction l with
  | nil => cases h
  | cons b t ih =>
    by_cases hb : b = a
    · simp [listIndex, hb]
    · rcases List.mem_cons.mp h with h1 | h2
      · exact absurd h1.symm hb
      · simpa [listIndex, hb] using ih h2

theorem listIndex_append_left {α : Type} [DecidableEq α] {a : α} {l : List α}
    (t : List α) (h : a ∈ l) : listIndex a (l ++ t) = listIndex a l := by
  induction l with
  | nil => cases h
  | cons b u ih =>
    by_cases hb : b = a
    · simp [listIndex, hb]
    · rcases List.mem_cons.mp h with h1 | h2
      · exact absurd h1.symm hb
      · simp [listIndex, hb, ih h2]

theorem listIndex_extend {α : Type} [DecidableEq α] {a : α} {l₁ l₂ : List α}
    (hp : l₁ <+: l₂) (h : a ∈ l₁) : listIndex a l₂ = listIndex a l₁ := by
  obtain ⟨t, rfl⟩ := hp
  exact listIndex_append_left t h

theorem listIndex_append_self {α : Type} [DecidableEq α] {a : α} {l : List α}
    (h : a ∉ l) : listIndex a (l ++ [a]) = l.length := by
  induction l with
  | nil => simp [listIndex]
  | cons b u ih =>
    have hb : b ≠ a := fun hba => h (hba ▸ List.mem_cons_self b u)
    simp [listIndex, hb, ih (fun hm => h (List.mem_cons_of_mem b hm))]

theorem listIndex_inj {α : Type} [DecidableEq α] :
    ∀ {l : List α}, l.Nodup → ∀ {a b : α}, a ∈ l → b ∈ l →
      listIndex a l = listIndex b l → a = b := by
  intro l
  induction l with
  | nil => intro _ a b ha; cases ha
  | cons c t ih =>
    intro hn a b ha hb h
    have hn' := (List.nodup_cons.mp hn).2
    have hcn := (List.nodup_cons.mp hn).1
    by_cases hca : c = a <;> by_cases hcb : c = b
    · exact hca.symm.trans hcb
    · by_cases hab : a = b
      · exact hab
      · exfalso
        simp [listIndex, hca, hcb, hab] at h
    · by_cases hab : a = b
      · exact hab
      · exfalso
        simp [listIndex, hca, hcb, hab] at h
        exact hab h.symm
    · simp only [listIndex, hca, hcb, if_false] at h
      have ha' : a ∈ t := by
        rcases List.mem_cons.mp ha with h1 | h2
        · exact absurd h1.symm hca
        · exact h2
      have hb' : b ∈ t := by
        rcases List.mem_cons.mp hb with h1 | h2
        · exact absurd h1.symm hcb
        · exact h2
      exact ih hn' ha' hb' (by omega)

/-! ### Builder invariants -/

/-- Well-formedness of a builder state: the vertex table has no
duplicates and the lookup set holds exactly the table's triples.  This
holds for every state reachable from the constructor. -/
def wfInv (w : wavefront) : Prop :=
  w.vertices.Nodup ∧ ∀ p : ℚ × ℚ × ℚ, p ∈ w.verticeset ↔ p ∈ w.vertices

/-- Every face references only in-range vertex indices. -/
def facesOk (w : wavefront) : Prop :=
  ∀ t ∈ w.faces, t.1 < w.vertices.length ∧ t.2.1 < w.vertices.length ∧
    t.2.2 < w.vertices.length

theorem wfInv_init (df : Bool) (cr : ℕ) : wfInv (wavefront.init df cr) := by
  constructor
  · exact List.nodup_nil
  · intro p; simp [wavefront.init]

theorem addvertex_spec (w : wavefront) (x y z : ℚ) (hw : wfInv w) :
    wfInv (w.addvertex x y z).1 ∧
    (w.addvertex x y z).1.crounding = w.crounding ∧
    (w.addvertex x y z).1.doubleface = w.doubleface ∧
    (w.addvertex x y z).1.faces = w.faces ∧
    w.vertices <+: (w.addvertex x y z).1.vertices ∧
    roundPoint w.crounding (x, y, z) ∈ (w.addvertex x y z).1.vertices ∧
    (w.addvertex x y z).2 =
      listIndex (roundPoint w.crounding (x, y, z)) (w.addvertex x y z).1.vertices := by
  by_cases hmem : (pyround w.crounding x, pyround w.crounding y, pyround w.crounding z)
      ∈ w.verticeset
  · have heq : w.addvertex x y z =
        (w, listIndex (pyround w.crounding x, pyround w.crounding y,
          pyround w.crounding z) w.vertices) := by
      simp only [wavefront.addvertex, if_pos hmem]
    rw [heq]
    exact ⟨hw, rfl, rfl, rfl, ⟨[], List.append_nil _⟩, (hw.2 _).mp hmem, rfl⟩
  · have hnm : (pyround w.crounding x, pyround w.crounding y, pyround w.crounding z)
        ∉ w.vertices := fun hv => hmem ((hw.2 _).mpr hv)
    have heq : w.addvertex x y z =
        ({ w with
            vertices := w.vertices ++
              [(pyround w.crounding x, pyround w.crounding y, pyround w.crounding z)],
            verticeset := (pyround w.crounding x, pyround w.crounding y,
              pyround w.crounding z) :: w.verticeset },
          listIndex (pyround w.crounding x, pyround w.crounding y, pyround w.crounding z)
            (w.vertices ++ [(pyround w.crounding x, pyround w.crounding y,
              pyround w.crounding z)])) := by
      simp only [wavefront.addvertex, if_neg hmem]
    rw [heq]
    refine ⟨⟨?_, ?_⟩, rfl, rfl, rfl, ⟨_, rfl⟩, ?_, rfl⟩
    · rw [List.nodup_append]
      exact ⟨hw.1, List.nodup_singleton _, by
        intro q hq hq'
        rcases List.mem_singleton.mp hq' with rfl
        exact hnm hq⟩
    · intro p
      constructor
      · intro hp
        rcases List.mem_cons.mp hp with rfl | hp'
        · exact List.mem_append_right _ (List.mem_singleton.mpr rfl)
        · exact List.mem_append_left _ ((hw.2 p).mp hp')
      · intro hp
        rcases List.mem_append.mp hp with hp' | hp'
        · exact List.mem_cons_of_mem _ ((hw.2 p).mpr hp')
        · exact (List.mem_singleton.mp hp') ▸ List.mem_cons_self _ _
    · exact List.mem_append_right _ (List.mem_singleton.mpr rfl)

theorem addvertexArgs_num (w : wavefront) (x y z : ℚ) :
    w.addvertexArgs [.num x, .num y, .num z] =
      ((w.addvertex x y z).1, .ok (w.addvertex x y z).2) := rfl

theorem addvertexArgs_preserves (w : wavefront) (args : List PyVal) (hw : wfInv w) :
    wfInv (w.addvertexArgs args).1 ∧
    (w.addvertexArgs args).1.crounding = w.crounding ∧
    (w.addvertexArgs args).1.doubleface = w.doubleface ∧
    (w.addvertexArgs args).1.faces = w.faces ∧
    w.vertices <+: (w.addvertexArgs args).1.vertices ∧
    (∀ i : ℕ, (w.addvertexArgs args).2 = .ok i →
      i < (w.addvertexArgs args).1.vertices.length) := by
  have err : wfInv w ∧ w.crounding = w.crounding ∧ w.doubleface = w.doubleface ∧
      w.faces = w.faces ∧ w.vertices <+: w.vertices ∧
      (∀ i : ℕ, (Except.error PyErr.typeError : Except PyErr ℕ) = .ok i →
        i < w.vertices.length) :=
    ⟨hw, rfl, rfl, rfl, ⟨[], List.append_nil _⟩, fun _ h => nomatch h⟩
  rcases args with _ | ⟨a, _ | ⟨b, _ | ⟨c, _ | ⟨d, rest⟩⟩⟩⟩
  · exact err
  · rcases a with q | l
    · exact err
    · exact err
  · rcases a with q | l <;> rcases b with q' | l'
    · exact err
    · exact err
    · exact err
    · exact err
  · rcases a with qa | la <;> rcases b with qb | lb <;> rcases c with qc | lc
    · obtain ⟨h1, h2, h3, h4, h5, h6, h7⟩ := addvertex_spec w qa qb qc hw
      exact ⟨h1, h2, h3, h4, h5, fun i hi => by
        rw [show i = (w.addvertex qa qb qc).2 from (Except.ok.injEq _ _).mp hi.symm, h7]
        exact listIndex_lt_length h6⟩
    all_goals exact err
  · exact err

theorem addface_preserves (w : wavefront) (args : List PyVal) (hw : wfInv w) :
    wfInv (w.addface args).1 ∧
    (w.addface args).1.crounding = w.crounding ∧
    (w.addface args).1.doubleface = w.doubleface ∧
    w.vertices <+: (w.addface args).1.vertices ∧
    (facesOk w → facesOk (w.addface args).1) := by
  have err : wfInv w ∧ w.crounding = w.crounding ∧ w.doubleface = w.doubleface ∧
      w.vertices <+: w.vertices ∧ (facesOk w → facesOk w) :=
    ⟨hw, rfl, rfl, ⟨[], List.append_nil _⟩, id⟩
  simp only [wavefront.addface]
  generalize (if args.length = 9 then condense9 args else args) = L
  split
  · -- arm [p1, p2, p3]
    split
    · -- all three pytuple calls succeeded
      rename_i l1 l2 l3 hq1 hq2 hq3
      obtain ⟨hw1, hc1, hd1, hf1, hp1, hb1⟩ := addvertexArgs_preserves w l1 hw
      split
      · -- first addvertexArgs returned ok
        rename_i w1 i1 h1
        have hs1 : (w.addvertexArgs l1).1 = w1 := by rw [h1]
        have hr1 : (w.addvertexArgs l1).2 = .ok i1 := by rw [h1]
        rw [hs1] at hw1 hc1 hd1 hf1 hp1
        rw [hs1, hr1] at hb1
        have hi1' : i1 < w1.vertices.length := hb1 i1 rfl
        obtain ⟨hw2, hc2, hd2, hf2, hp2, hb2⟩ := addvertexArgs_preserves w1 l2 hw1
        split
        · rename_i w2 i2 h2
          have hs2 : (w1.addvertexArgs l2).1 = w2 := by rw [h2]
          have hr2 : (w1.addvertexArgs l2).2 = .ok i2 := by rw [h2]
          rw [hs2] at hw2 hc2 hd2 hf2 hp2
          rw [hs2, hr2] at hb2
          have hi2' : i2 < w2.vertices.length := hb2 i2 rfl
          obtain ⟨hw3, hc3, hd3, hf3, hp3, hb3⟩ := addvertexArgs_preserves w2 l3 hw2
          split
          · rename_i w3 i3 h3
            have hs3 : (w2.addvertexArgs l3).1 = w3 := by rw [h3]
            have hr3 : (w2.addvertexArgs l3).2 = .ok i3 := by rw [h3]
            rw [hs3] at hw3 hc3 hd3 hf3 hp3
            rw [hs3, hr3] at hb3
            have hi1 : i1 < w3.vertices.length :=
              lt_of_lt_of_le hi1' (hp2.trans hp3).length_le
            have hi2 : i2 < w3.vertices.length := lt_of_lt_of_le hi2' hp3.length_le
            have hi3 : i3 < w3.vertices.length := hb3 i3 rfl
            have hfull := (hp1.trans hp2).trans hp3
            have hcfull : w3.crounding = w.crounding := hc3.trans (hc2.trans hc1)
            have hdfull : w3.doubleface = w.doubleface := hd3.trans (hd2.trans hd1)
            have hffull : w3.faces = w.faces := hf3.trans (hf2.trans hf1)
            split
            · refine ⟨hw3, hcfull, hdfull, hfull, fun hok t ht => ?_⟩
              have ht' : t ∈ w3.faces ++ [(i1, i2, i3), (i3, i2, i1)] := ht
              rcases List.mem_append.mp ht' with hold | hnew
              · have := hok t (hffull ▸ hold)
                exact ⟨lt_of_lt_of_le this.1 hfull.length_le,
                  lt_of_lt_of_le this.2.1 hfull.length_le,
                  lt_of_lt_of_le this.2.2 hfull.length_le⟩
              · rcases List.mem_cons.mp hnew with h | h
                · rw [h]; exact ⟨hi1, hi2, hi3⟩
                · rw [List.mem_singleton.mp h]; exact ⟨hi3, hi2, hi1⟩
            · refine ⟨hw3, hcfull, hdfull, hfull, fun hok t ht => ?_⟩
              have ht' : t ∈ w3.faces ++ [(i1, i2, i3)] := ht
              rcases List.mem_append.mp ht' with hold | hnew
              · have := hok t (hffull ▸ hold)
                exact ⟨lt_of_lt_of_le this.1 hfull.length_le,
                  lt_of_lt_of_le this.2.1 hfull.length_le,
                  lt_of_lt_of_le this.2.2 hfull.length_le⟩
              · rw [List.mem_singleton.mp hnew]; exact ⟨hi1, hi2, hi3⟩
          · rename_i w3 e3 h3
            have hs3 : (w2.addvertexArgs l3).1 = w3 := by rw [h3]
            rw [hs3] at hw3 hc3 hd3 hf3 hp3
            have hfull := (hp1.trans hp2).trans hp3
            have hffull : w3.faces = w.faces := hf3.trans (hf2.trans hf1)
            refine ⟨hw3, hc3.trans (hc2.trans hc1), hd3.trans (hd2.trans hd1),
              hfull, fun hok t ht => ?_⟩
            have ht' : t ∈ w3.faces := ht
            have := hok t (hffull ▸ ht')
            exact ⟨lt_of_lt_of_le this.1 hfull.length_le,
              lt_of_lt_of_le this.2.1 hfull.length_le,
              lt_of_lt_of_le this.2.2 hfull.length_le⟩
        · rename_i w2 e2 h2
          have hs2 : (w1.addvertexArgs l2).1 = w2 := by rw [h2]
          rw [hs2] at hw2 hc2 hd2 hf2 hp2
          have hfull := hp1.trans hp2
          have hffull : w2.faces = w.faces := hf2.trans hf1
          refine ⟨hw2, hc2.trans hc1, hd2.trans hd1, hfull, fun hok t ht => ?_⟩
          have ht' : t ∈ w2.faces := ht
          have := hok t (hffull ▸ ht')
          exact ⟨lt_of_lt_of_le this.1 hfull.length_le,
            lt_of_lt_of_le this.2.1 hfull.length_le,
            lt_of_lt_of_le this.2.2 hfull.length_le⟩
      · rename_i w1 e1 h1
        have hs1 : (w.addvertexArgs l1).1 = w1 := by rw [h1]
        rw [hs1] at hw1 hc1 hd1 hf1 hp1
        refine ⟨hw1, hc1, hd1, hp1, fun hok t ht => ?_⟩
        have ht' : t ∈ w1.faces := ht
        have := hok t (hf1 ▸ ht')
        exact ⟨lt_of_lt_of_le this.1 hp1.length_le,
          lt_of_lt_of_le this.2.1 hp1.length_le,
          lt_of_lt_of_le this.2.2 hp1.length_le⟩
    · exact err
  · exact err

theorem addquad_preserves (w : wavefront) (args : List PyVal) (hw : wfInv w) :
    wfInv (w.addquad args).1 ∧
    (w.addquad args).1.crounding = w.crounding ∧
    (w.addquad args).1.doubleface = w.doubleface ∧
    w.vertices <+: (w.addquad args).1.vertices ∧
    (facesOk w → facesOk (w.addquad args).1) := by
  have err : wfInv w ∧ w.crounding = w.crounding ∧ w.doubleface = w.doubleface ∧
      w.vertices <+: w.vertices ∧ (facesOk w → facesOk w) :=
    ⟨hw, rfl, rfl, ⟨[], List.append_nil _⟩, id⟩
  simp only [wavefront.addquad]
  generalize (if args.length = 12 then condense12 args else args) = L
  split
  · rename_i p1 p2 p3 p4
    obtain ⟨hw1, hc1, hd1, hp1, hk1⟩ := addface_preserves w [p1, p2, p3] hw
    split
    · rename_i w1 h1
      have hs1 : (w.addface [p1, p2, p3]).1 = w1 := by rw [h1]
      rw [hs1] at hw1 hc1 hd1 hp1 hk1
      obtain ⟨hw2, hc2, hd2, hp2, hk2⟩ := addface_preserves w1 [p1, p3, p4] hw1
      exact ⟨hw2, hc2.trans hc1, hd2.trans hd1, hp1.trans hp2,
        fun hok => hk2 (hk1 hok)⟩
    · rename_i w1 e1 h1
      have hs1 : (w.addface [p1, p2, p3]).1 = w1 := by rw [h1]
      rw [hs1] at hw1 hc1 hd1 hp1 hk1
      exact ⟨hw1, hc1, hd1, hp1, hk1⟩
  · exact err

/-! ### Operation sequences on a builder (for the append-only invariant) -/

/-- A call made by a client of the builder. -/
inductive MeshOp where
  | vert (x y z : ℚ)
  | face (args : List PyVal)
  | quad (args : List PyVal)

/-- Execute one call against a state (retaining the post-exception state,
as a caught Python exception would). -/
def applyOp (w : wavefront) : MeshOp → wavefront
  | .vert x y z => (w.addvertex x y z).1
  | .face a => (w.addface a).1
  | .quad a => (w.addquad a).1

/-- Execute a sequence of calls. -/
def runOps (w : wavefront) (ops : List MeshOp) : wavefront :=
  ops.foldl applyOp w

theorem applyOp_preserves (w : wavefront) (op : MeshOp) (hw : wfInv w) :
    wfInv (applyOp w op) ∧ w.vertices <+: (applyOp w op).vertices ∧
    (facesOk w → facesOk (applyOp w op)) := by
  cases op with
  | vert x y z =>
    simp only [applyOp]
    obtain ⟨h1, _, _, h4, h5, _, _⟩ := addvertex_spec w x y z hw
    exact ⟨h1, h5, fun hok t ht => by
      rw [h4] at ht
      have := hok t ht
      exact ⟨lt_of_lt_of_le this.1 h5.length_le, lt_of_lt_of_le this.2.1 h5.length_le,
        lt_of_lt_of_le this.2.2 h5.length_le⟩⟩
  | face a =>
    simp only [applyOp]
    obtain ⟨h1, _, _, h4, h5⟩ := addface_preserves w a hw
    exact ⟨h1, h4, h5⟩
  | quad a =>
    simp only [applyOp]
    obtain ⟨h1, _, _, h4, h5⟩ := addquad_preserves w a hw
    exact ⟨h1, h4, h5⟩

theorem runOps_preserves (ops : List MeshOp) :
    ∀ w : wavefront, wfInv w →
      wfInv (runOps w ops) ∧ w.vertices <+: (runOps w ops).vertices ∧
      (facesOk w → facesOk (runOps w ops)) := by
  induction ops with
  | nil => exact fun w hw => ⟨hw, ⟨[], List.append_nil _⟩, id⟩
  | cons op rest ih =>
    intro w hw
    obtain ⟨h1, h2, h3⟩ := applyOp_preserves w op hw
    obtain ⟨g1, g2, g3⟩ := ih (applyOp w op) h1
    exact ⟨g1, h2.trans g2, fun hok => g3 (h3 hok)⟩

theorem runOps_append (w : wavefront) (l1 l2 : List MeshOp) :
    runOps w (l1 ++ l2) = runOps (runOps w l1) l2 :=
  List.foldl_append _ _ _ _

/-! ### Faithful characterization of `addface` on coordinate-triple calls -/

/-- A coordinate triple as the Python tuple value passed to `addface`. -/
def pv3 (p : ℚ × ℚ × ℚ) : PyVal := .seq [.num p.1, .num p.2.1, .num p.2.2]

theorem addvertex_doubleface (w : wavefront) (x y z : ℚ) :
    (w.addvertex x y z).1.doubleface = w.doubleface := by
  simp only [wavefront.addvertex]
  split <;> rfl

theorem addface_seq3_core (w : wavefront) (x1 y1 z1 x2 y2 z2 x3 y3 z3 : ℚ) :
    w.addface [.seq [.num x1, .num y1, .num z1], .seq [.num x2, .num y2, .num z2],
        .seq [.num x3, .num y3, .num z3]] =
      (let r1 := w.addvertex x1 y1 z1
       let r2 := r1.1.addvertex x2 y2 z2
       let r3 := r2.1.addvertex x3 y3 z3
       if r3.1.doubleface then
         ({ r3.1 with faces := r3.1.faces ++ [(r1.2, r2.2, r3.2), (r3.2, r2.2, r1.2)] }, none)
       else ({ r3.1 with faces := r3.1.faces ++ [(r1.2, r2.2, r3.2)] }, none)) := rfl

theorem addface_pv3_spec (w : wavefront) (a b c : ℚ × ℚ × ℚ) (hw : wfInv w)
    (hdf : w.doubleface = false) :
    (w.addface [pv3 a, pv3 b, pv3 c]).2 = none ∧
    wfInv (w.addface [pv3 a, pv3 b, pv3 c]).1 ∧
    (w.addface [pv3 a, pv3 b, pv3 c]).1.crounding = w.crounding ∧
    (w.addface [pv3 a, pv3 b, pv3 c]).1.doubleface = false ∧
    w.vertices <+: (w.addface [pv3 a, pv3 b, pv3 c]).1.vertices ∧
    roundPoint w.crounding a ∈ (w.addface [pv3 a, pv3 b, pv3 c]).1.vertices ∧
    roundPoint w.crounding b ∈ (w.addface [pv3 a, pv3 b, pv3 c]).1.vertices ∧
    roundPoint w.crounding c ∈ (w.addface [pv3 a, pv3 b, pv3 c]).1.vertices ∧
    (w.addface [pv3 a, pv3 b, pv3 c]).1.faces = w.faces ++
      [(listIndex (roundPoint w.crounding a) (w.addface [pv3 a, pv3 b, pv3 c]).1.vertices,
        listIndex (roundPoint w.crounding b) (w.addface [pv3 a, pv3 b, pv3 c]).1.vertices,
        listIndex (roundPoint w.crounding c) (w.addface [pv3 a, pv3 b, pv3 c]).1.vertices)] := by
  obtain ⟨hw1, hc1, hd1, hf1, hp1, hm1, hi1⟩ := addvertex_spec w a.1 a.2.1 a.2.2 hw
  obtain ⟨hw2, hc2, hd2, hf2, hp2, hm2, hi2⟩ :=
    addvertex_spec (w.addvertex a.1 a.2.1 a.2.2).1 b.1 b.2.1 b.2.2 hw1
  obtain ⟨hw3, hc3, hd3, hf3, hp3, hm3, hi3⟩ :=
    addvertex_spec ((w.addvertex a.1 a.2.1 a.2.2).1.addvertex b.1 b.2.1 b.2.2).1
      c.1 c.2.1 c.2.2 hw2
  have hdf3 : (((w.addvertex a.1 a.2.1 a.2.2).1.addvertex b.1 b.2.1 b.2.2).1.addvertex
      c.1 c.2.1 c.2.2).1.doubleface = false := by
    rw [addvertex_doubleface, addvertex_doubleface, addvertex_doubleface, hdf]
  have hface : w.addface [pv3 a, pv3 b, pv3 c] =
      ({ (((w.addvertex a.1 a.2.1 a.2.2).1.addvertex b.1 b.2.1 b.2.2).1.addvertex
            c.1 c.2.1 c.2.2).1 with
          faces := (((w.addvertex a.1 a.2.1 a.2.2).1.addvertex b.1 b.2.1 b.2.2).1.addvertex
              c.1 c.2.1 c.2.2).1.faces ++
            [((w.addvertex a.1 a.2.1 a.2.2).2,
              ((w.addvertex a.1 a.2.1 a.2.2).1.addvertex b.1 b.2.1 b.2.2).2,
              (((w.addvertex a.1 a.2.1 a.2.2).1.addvertex b.1 b.2.1 b.2.2).1.addvertex
                c.1 c.2.1 c.2.2).2)] }, none) := by
    have hcore := addface_seq3_core w a.1 a.2.1 a.2.2 b.1 b.2.1 b.2.2 c.1 c.2.1 c.2.2
    simp only [pv3]
    rw [hcore]
    simp only [hdf3, Bool.false_eq_true, if_false]
  -- abbreviations for the three intermediate states and indices
  rw [hface]
  have hcra : (w.addvertex a.1 a.2.1 a.2.2).1.crounding = w.crounding := hc1
  have hcrb : ((w.addvertex a.1 a.2.1 a.2.2).1.addvertex b.1 b.2.1 b.2.2).1.crounding
      = w.crounding := hc2.trans hc1
  rw [hcra] at hm2 hi2
  rw [hcrb] at hm3 hi3
  have hpa : roundPoint w.crounding a ∈
      (((w.addvertex a.1 a.2.1 a.2.2).1.addvertex b.1 b.2.1 b.2.2).1.addvertex
        c.1 c.2.1 c.2.2).1.vertices := (hp2.trans hp3).subset hm1
  have hpb : roundPoint w.crounding b ∈
      (((w.addvertex a.1 a.2.1 a.2.2).1.addvertex b.1 b.2.1 b.2.2).1.addvertex
        c.1 c.2.1 c.2.2).1.vertices := hp3.subset hm2
  have hpc : roundPoint w.crounding c ∈
      (((w.addvertex a.1 a.2.1 a.2.2).1.addvertex b.1 b.2.1 b.2.2).1.addvertex
        c.1 c.2.1 c.2.2).1.vertices := hm3
  refine ⟨rfl, hw3, hc3.trans (hc2.trans hc1), hdf3, (hp1.trans hp2).trans hp3,
    hpa, hpb, hpc, ?_⟩
  rw [hf3, hf2, hf1]
  rw [hi1, hi2, hi3]
  have ea : listIndex (roundPoint w.crounding a) (w.addvertex a.1 a.2.1 a.2.2).1.vertices
      = listIndex (roundPoint w.crounding a)
        (((w.addvertex a.1 a.2.1 a.2.2).1.addvertex b.1 b.2.1 b.2.2).1.addvertex
          c.1 c.2.1 c.2.2).1.vertices :=
    (listIndex_extend (hp2.trans hp3) hm1).symm
  have eb : listIndex (roundPoint w.crounding b)
      ((w.addvertex a.1 a.2.1 a.2.2).1.addvertex b.1 b.2.1 b.2.2).1.vertices
      = listIndex (roundPoint w.crounding b)
        (((w.addvertex a.1 a.2.1 a.2.2).1.addvertex b.1 b.2.1 b.2.2).1.addvertex
          c.1 c.2.1 c.2.2).1.vertices :=
    (listIndex_extend hp3 hm2).symm
  rw [ea, eb]

/-- Coordinate-triple triangles, as the gear generator feeds them to the
builder. -/
def runFaceCalls (w : wavefront)
    (cs : List ((ℚ × ℚ × ℚ) × (ℚ × ℚ × ℚ) × (ℚ × ℚ × ℚ))) : wavefront :=
  cs.foldl (fun w c => (w.addface [pv3 c.1, pv3 c.2.1, pv3 c.2.2]).1) w

theorem runFaceCalls_append (w : wavefront)
    (l1 l2 : List ((ℚ × ℚ × ℚ) × (ℚ × ℚ × ℚ) × (ℚ × ℚ × ℚ))) :
    runFaceCalls w (l1 ++ l2) = runFaceCalls (runFaceCalls w l1) l2 :=
  List.foldl_append _ _ _ _

theorem runFaceCalls_spec (cs : List ((ℚ × ℚ × ℚ) × (ℚ × ℚ × ℚ) × (ℚ × ℚ × ℚ))) :
    ∀ w : wavefront, wfInv w → w.doubleface = false →
    wfInv (runFaceCalls w cs) ∧
    (runFaceCalls w cs).crounding = w.crounding ∧
    (runFaceCalls w cs).doubleface = false ∧
    w.vertices <+: (runFaceCalls w cs).vertices ∧
    (∀ c ∈ cs, roundPoint w.crounding c.1 ∈ (runFaceCalls w cs).vertices ∧
      roundPoint w.crounding c.2.1 ∈ (runFaceCalls w cs).vertices ∧
      roundPoint w.crounding c.2.2 ∈ (runFaceCalls w cs).vertices) ∧
    (runFaceCalls w cs).faces = w.faces ++ cs.map (fun c =>
      (listIndex (roundPoint w.crounding c.1) (runFaceCalls w cs).vertices,
       listIndex (roundPoint w.crounding c.2.1) (runFaceCalls w cs).vertices,
       listIndex (roundPoint w.crounding c.2.2) (runFaceCalls w cs).vertices)) := by
  induction cs with
  | nil =>
    intro w hw hdf
    refine ⟨hw, rfl, hdf, ⟨[], List.append_nil _⟩, ?_, ?_⟩
    · intro c hc
      exact absurd hc (List.not_mem_nil c)
    · simp [runFaceCalls]
  | cons c rest ih =>
    intro w hw hdf
    obtain ⟨he, hw1, hc1, hd1, hp1, hma, hmb, hmc, hfc⟩ :=
      addface_pv3_spec w c.1 c.2.1 c.2.2 hw hdf
    have hrun : runFaceCalls w (c :: rest) =
        runFaceCalls (w.addface [pv3 c.1, pv3 c.2.1, pv3 c.2.2]).1 rest := rfl
    obtain ⟨gw, gc, gd, gp, gm, gf⟩ :=
      ih (w.addface [pv3 c.1, pv3 c.2.1, pv3 c.2.2]).1 hw1 hd1
    rw [hrun]
    refine ⟨gw, gc.trans hc1, gd, hp1.trans gp, ?_, ?_⟩
    · intro d hd
      rcases List.mem_cons.mp hd with rfl | hd'
      · exact ⟨gp.subset hma, gp.subset hmb, gp.subset hmc⟩
      · have := gm d hd'
        rw [hc1] at this
        exact this
    · rw [gf, hfc]
      rw [List.map_cons, List.append_assoc]
      congr 1
      rw [List.singleton_append]
      congr 1
      · have e1 : listIndex (roundPoint w.crounding c.1)
            (runFaceCalls (w.addface [pv3 c.1, pv3 c.2.1, pv3 c.2.2]).1 rest).vertices
            = listIndex (roundPoint w.crounding c.1)
              (w.addface [pv3 c.1, pv3 c.2.1, pv3 c.2.2]).1.vertices :=
          listIndex_extend gp hma
        have e2 : listIndex (roundPoint w.crounding c.2.1)
            (runFaceCalls (w.addface [pv3 c.1, pv3 c.2.1, pv3 c.2.2]).1 rest).vertices
            = listIndex (roundPoint w.crounding c.2.1)
              (w.addface [pv3 c.1, pv3 c.2.1, pv3 c.2.2]).1.vertices :=
          listIndex_extend gp hmb
        have e3 : listIndex (roundPoint w.crounding c.2.2)
            (runFaceCalls (w.addface [pv3 c.1, pv3 c.2.1, pv3 c.2.2]).1 rest).vertices
            = listIndex (roundPoint w.crounding c.2.2)
              (w.addface [pv3 c.1, pv3 c.2.1, pv3 c.2.2]).1.vertices :=
          listIndex_extend gp hmc
        rw [e1, e2, e3]
      · rw [hc1]

/-! ### The gear generator (`gear3dgen.py`)

The source computes every coordinate with `math.cos`, `math.sin` and
`math.pi` on IEEE floats.  The embedding abstracts those three
primitives as the fields of `pymath`; every theorem below holds for an
arbitrary instance, and concrete witnesses instantiate it with simple
computable functions. -/

/-- Abstraction of the float-library primitives used by the generator. -/
structure pymath where
  pi : ℚ
  cos : ℚ → ℚ
  sin : ℚ → ℚ

/-- Helper `g_vshape`: V-shaped tooth. -/
def g_vshape (x : ℚ) : ℚ := |(1 : ℚ) / 2 - x| * 2

/-- Helper `g_ashape`: A-shaped tooth. -/
def g_ashape (x : ℚ) : ℚ := 1 - g_vshape x

/-- Helper `g_sine`: sinusoidal tooth, the default `toothfunc`. -/
def g_sine (M : pymath) (x : ℚ) : ℚ := M.cos (x * M.pi * 2) / 2 + 1 / 2

/-- Helper `g_halfsine`: undercut half-sinusoidal tooth. -/
def g_halfsine (M : pymath) (x : ℚ) : ℚ := max (M.cos (x * M.pi * 2)) 0

/-- The full-circumference radius profile: sample the tooth function at
`toothpts` evenly spaced positions, map to the radius interval, and
repeat `teeth` times (`toothprofile * teeth` in the source). -/
def gearProfile (M : pymath) (innerrad outerrad : ℚ) (teeth toothpts : ℕ)
    (toothfunc : Option (ℚ → ℚ)) : List ℚ :=
  let tf := toothfunc.getD (g_sine M)
  let toothprofile := (List.range toothpts).map (fun (x : ℕ) => tf ((x : ℚ) / (toothpts : ℚ)))
  let toothprofile2 := toothprofile.map (fun v => innerrad + v * (outerrad - innerrad))
  (List.replicate teeth toothprofile2).flatten

/-- The effective layer count: the source forces `vlayers = 2` when no
`anglefunc` is supplied. -/
def effLayers (anglefunc : Option (ℚ → ℚ)) (vlayers : ℕ) : ℕ :=
  match anglefunc with
  | none => 2
  | some _ => vlayers

/-- The effective angle function: the constant-zero default when no
`anglefunc` is supplied. -/
def effAngle (anglefunc : Option (ℚ → ℚ)) : ℚ → ℚ :=
  match anglefunc with
  | none => fun _ => 0
  | some f => f

/-- The layered point matrix `geargeometry`: one row per layer, each row
the `N` profile points at that height (twisted by `anglefunc`) with the
first point appended again at the end to close the loop. -/
def gearGeometry (M : pymath) (innerrad outerrad : ℚ) (teeth : ℕ) (thickness : ℚ)
    (toothfunc : Option (ℚ → ℚ)) (toothpts : ℕ) (anglefunc : Option (ℚ → ℚ))
    (vlayers : ℕ) : List (List (ℚ × ℚ × ℚ)) :=
  let gearprofile := gearProfile M innerrad outerrad teeth toothpts toothfunc
  let gearpstep := M.pi * 2 / (gearprofile.length : ℚ)
  let vl := effLayers anglefunc vlayers
  let layerthickness := thickness / ((vl : ℚ) - 1)
  (List.range vl).map (fun (layer : ℕ) =>
    let layerz := (layer : ℚ) * layerthickness
    let layerprog := (layer : ℚ) / ((vl : ℚ) - 1)
    let anglebias := effAngle anglefunc layerprog
    let layerpoints := (List.range gearprofile.length).map (fun (lstep : ℕ) =>
      (M.cos (gearpstep * (lstep : ℚ) + anglebias) * gearprofile.getD lstep 0,
       M.sin (gearpstep * (lstep : ℚ) + anglebias) * gearprofile.getD lstep 0,
       layerz))
    layerpoints ++ [layerpoints.headD (0, 0, 0)])

/-- Point lookup `geargeometry[l][p]` (all accesses made by the source
are in bounds; the default is never read in the stitched range). -/
def gearPoint (M : pymath) (innerrad outerrad : ℚ) (teeth : ℕ) (thickness : ℚ)
    (toothfunc : Option (ℚ → ℚ)) (toothpts : ℕ) (anglefunc : Option (ℚ → ℚ))
    (vlayers : ℕ) (l p : ℕ) : ℚ × ℚ × ℚ :=
  ((gearGeometry M innerrad outerrad teeth thickness toothfunc toothpts anglefunc
      vlayers).getD l []).getD p (0, 0, 0)

/-- The builder state assembled by `gear3dgen`: a `wavefront` with
`crounding = xyrounding` (single-sided faces), fed the side-wall
triangles of every adjacent layer pair and then the floor and ceiling
fans around `(0,0,0)` and `(0,0,thickness)`, exactly in source order. -/
def gearObject (M : pymath) (innerrad outerrad : ℚ) (teeth : ℕ) (thickness : ℚ)
    (toothfunc : Option (ℚ → ℚ)) (toothpts : ℕ) (anglefunc : Option (ℚ → ℚ))
    (vlayers : ℕ) (xyrounding : ℕ) : wavefront :=
  let gearprofile := gearProfile M innerrad outerrad teeth toothpts toothfunc
  let vl := effLayers anglefunc vlayers
  let geargeometry := gearGeometry M innerrad outerrad teeth thickness toothfunc
    toothpts anglefunc vlayers
  let gpt := fun (l p : ℕ) => (geargeometry.getD l []).getD p ((0 : ℚ), (0 : ℚ), (0 : ℚ))
  let obj0 : wavefront := wavefront.init false xyrounding
  let obj1 := (List.range (vl - 1)).foldl (fun w layer =>
    (List.range gearprofile.length).foldl (fun w point =>
      let w := (w.addface [pv3 (gpt layer point), pv3 (gpt layer (point + 1)),
        pv3 (gpt (layer + 1) (point + 1))]).1
      (w.addface [pv3 (gpt layer point), pv3 (gpt (layer + 1) (point + 1)),
        pv3 (gpt (layer + 1) point)]).1) w) obj0
  (List.range gearprofile.length).foldl (fun w point =>
    let w := (w.addface [pv3 (gpt 0 (point + 1)), pv3 (gpt 0 point),
      pv3 ((0 : ℚ), (0 : ℚ), (0 : ℚ))]).1
    (w.addface [pv3 (gpt (geargeometry.length - 1) point),
      pv3 (gpt (geargeometry.length - 1) (point + 1)),
      pv3 ((0 : ℚ), (0 : ℚ), thickness)]).1) obj1

/-- The `gear3dgen` entry point: build the mesh and serialize it via
`save` (default unit zoom and zero offset); file naming and writing are
outside the embedding, `returnonly` mirroring `outfile is None`. -/
def gear3dgen (M : pymath) (innerrad outerrad : ℚ) (teeth : ℕ) (thickness : ℚ)
    (toothfunc : Option (ℚ → ℚ)) (toothpts : ℕ) (anglefunc : Option (ℚ → ℚ))
    (vlayers : ℕ) (xyrounding : ℕ) (returnonly : Bool) : wavefront × List ObjLine :=
  (gearObject M innerrad outerrad teeth thickness toothfunc toothpts anglefunc
    vlayers xyrounding).save (1, 1, 1) (0, 0, 0) returnonly

theorem gearProfile_length (M : pymath) (innerrad outerrad : ℚ) (teeth toothpts : ℕ)
    (toothfunc : Option (ℚ → ℚ)) :
    (gearProfile M innerrad outerrad teeth toothpts toothfunc).length =
      teeth * toothpts := by
  unfold gearProfile
  simp only [List.length_flatten, List.map_replicate, List.length_map,
    List.length_range, List.sum_replicate, smul_eq_mul]

theorem gearGeometry_length (M : pymath) (innerrad outerrad : ℚ) (teeth : ℕ)
    (thickness : ℚ) (toothfunc : Option (ℚ → ℚ)) (toothpts : ℕ)
    (anglefunc : Option (ℚ → ℚ)) (vlayers : ℕ) :
    (gearGeometry M innerrad outerrad teeth thickness toothfunc toothpts anglefunc
      vlayers).length = effLayers anglefunc vlayers := by
  unfold gearGeometry
  simp only [List.length_map, List.length_range]

/-! ### The stitching pattern as an abstract face list -/

/-- The side-wall triangles: for each adjacent layer pair `(l, l+1)` and
each profile index `k`, the two triangles of the quad, in source order. -/
def sideFaces {α : Type} (L N : ℕ) (f : ℕ → ℕ → α) : List (α × α × α) :=
  (List.range (L - 1)).flatMap (fun l =>
    (List.range N).flatMap (fun k =>
      [(f l k, f l (k + 1), f (l + 1) (k + 1)),
       (f l k, f (l + 1) (k + 1), f (l + 1) k)]))

/-- The floor and ceiling fans around the two axis points, in source
order (floor then ceiling for each profile index). -/
def capFaces {α : Type} (L N : ℕ) (f : ℕ → ℕ → α) (c0 c1 : α) : List (α × α × α) :=
  (List.range N).flatMap (fun k =>
    [(f 0 (k + 1), f 0 k, c0), (f (L - 1) k, f (L - 1) (k + 1), c1)])

/-- All triangles emitted by the generator, in source order. -/
def meshFaces {α : Type} (L N : ℕ) (f : ℕ → ℕ → α) (c0 c1 : α) : List (α × α × α) :=
  sideFaces L N f ++ capFaces L N f c0 c1

theorem runFaceCalls_flatMap {β : Type}
    (g : β → List ((ℚ × ℚ × ℚ) × (ℚ × ℚ × ℚ) × (ℚ × ℚ × ℚ))) (l : List β) :
    ∀ w : wavefront, l.foldl (fun w b => runFaceCalls w (g b)) w =
      runFaceCalls w (l.flatMap g) := by
  induction l with
  | nil => intro w; rfl
  | cons b rest ih =>
    intro w
    rw [List.flatMap_cons, runFaceCalls_append]
    exact ih (runFaceCalls w (g b))

theorem foldl_side (gp : ℕ → ℕ → ℚ × ℚ × ℚ) (A B : ℕ) (w : wavefront) :
    (List.range A).foldl (fun w layer =>
      (List.range B).foldl (fun w point =>
        let w := (w.addface [pv3 (gp layer point), pv3 (gp layer (point + 1)),
          pv3 (gp (layer + 1) (point + 1))]).1
        (w.addface [pv3 (gp layer point), pv3 (gp (layer + 1) (point + 1)),
          pv3 (gp (layer + 1) point)]).1) w) w =
    runFaceCalls w ((List.range A).flatMap (fun l => (List.range B).flatMap (fun k =>
      [(gp l k, gp l (k + 1), gp (l + 1) (k + 1)),
       (gp l k, gp (l + 1) (k + 1), gp (l + 1) k)]))) := by
  have hfun : (fun (w : wavefront) (layer : ℕ) =>
      (List.range B).foldl (fun w point =>
        let w := (w.addface [pv3 (gp layer point), pv3 (gp layer (point + 1)),
          pv3 (gp (layer + 1) (point + 1))]).1
        (w.addface [pv3 (gp layer point), pv3 (gp (layer + 1) (point + 1)),
          pv3 (gp (layer + 1) point)]).1) w) =
      (fun (w : wavefront) (layer : ℕ) => runFaceCalls w ((List.range B).flatMap
        (fun k => [(gp layer k, gp layer (k + 1), gp (layer + 1) (k + 1)),
          (gp layer k, gp (layer + 1) (k + 1), gp (layer + 1) k)]))) :=
    funext fun w' => funext fun layer =>
      runFaceCalls_flatMap (fun k =>
        [(gp layer k, gp layer (k + 1), gp (layer + 1) (k + 1)),
         (gp layer k, gp (layer + 1) (k + 1), gp (layer + 1) k)]) (List.range B) w'
  rw [hfun]
  exact runFaceCalls_flatMap _ (List.range A) w

theorem foldl_cap (gp : ℕ → ℕ → ℚ × ℚ × ℚ) (c0 c1 : ℚ × ℚ × ℚ) (B L1 : ℕ)
    (w : wavefront) :
    (List.range B).foldl (fun w point =>
      let w := (w.addface [pv3 (gp 0 (point + 1)), pv3 (gp 0 point), pv3 c0]).1
      (w.addface [pv3 (gp L1 point), pv3 (gp L1 (point + 1)), pv3 c1]).1) w =
    runFaceCalls w ((List.range B).flatMap (fun k =>
      [(gp 0 (k + 1), gp 0 k, c0), (gp L1 k, gp L1 (k + 1), c1)])) :=
  runFaceCalls_flatMap (fun k =>
    [(gp 0 (k + 1), gp 0 k, c0), (gp L1 k, gp L1 (k + 1), c1)]) (List.range B) w

theorem gearObject_eq_run (M : pymath) (innerrad outerrad : ℚ) (teeth : ℕ)
    (thickness : ℚ) (toothfunc : Option (ℚ → ℚ)) (toothpts : ℕ)
    (anglefunc : Option (ℚ → ℚ)) (vlayers : ℕ) (xyrounding : ℕ) :
    gearObject M innerrad outerrad teeth thickness toothfunc toothpts anglefunc
        vlayers xyrounding =
      runFaceCalls (wavefront.init false xyrounding)
        (meshFaces (effLayers anglefunc vlayers)
          (gearProfile M innerrad outerrad teeth toothpts toothfunc).length
          (gearPoint M innerrad outerrad teeth thickness toothfunc toothpts anglefunc
            vlayers)
          ((0 : ℚ), (0 : ℚ), (0 : ℚ)) ((0 : ℚ), (0 : ℚ), thickness)) := by
  simp only [gearObject]
  rw [gearGeometry_length]
  rw [foldl_side (fun l p => ((gearGeometry M innerrad outerrad teeth thickness
      toothfunc toothpts anglefunc vlayers).getD l []).getD p ((0 : ℚ), (0 : ℚ), (0 : ℚ)))
    (effLayers anglefunc vlayers - 1)
    (gearProfile M innerrad outerrad teeth toothpts toothfunc).length]
  rw [foldl_cap (fun l p => ((gearGeometry M innerrad outerrad teeth thickness
      toothfunc toothpts anglefunc vlayers).getD l []).getD p ((0 : ℚ), (0 : ℚ), (0 : ℚ)))
    ((0 : ℚ), (0 : ℚ), (0 : ℚ)) ((0 : ℚ), (0 : ℚ), thickness)
    (gearProfile M innerrad outerrad teeth toothpts toothfunc).length
    (effLayers anglefunc vlayers - 1)]
  rw [meshFaces, runFaceCalls_append]
  rfl

/-! ### Claim theorems: the mesh builder -/

/-- C1: vertex deduplication is idempotent.  For every builder state and
any two coordinate triples whose rounded forms coincide, the second
`addvertex` call returns the same index as the first and leaves the
state (in particular the Vertex Table) completely unchanged, and the
first call grows the table by at most one entry. -/
theorem addvertex_dedup_idempotent (w : wavefront) (x y z x' y' z' : ℚ)
    (h : roundPoint w.crounding (x, y, z) = roundPoint w.crounding (x', y', z')) :
    (w.addvertex x y z).1.addvertex x' y' z' =
      ((w.addvertex x y z).1, (w.addvertex x y z).2) ∧
    (w.addvertex x y z).1.vertices.length ≤ w.vertices.length + 1 := by
  have h' : (pyround w.crounding x, pyround w.crounding y, pyround w.crounding z) =
      (pyround w.crounding x', pyround w.crounding y', pyround w.crounding z') := h
  by_cases hmem : (pyround w.crounding x, pyround w.crounding y, pyround w.crounding z)
      ∈ w.verticeset
  · have h1 : w.addvertex x y z = (w, listIndex (pyround w.crounding x,
        pyround w.crounding y, pyround w.crounding z) w.vertices) := by
      simp only [wavefront.addvertex, if_pos hmem]
    rw [h1]
    have hmem' : (pyround w.crounding x', pyround w.crounding y', pyround w.crounding z')
        ∈ w.verticeset := h' ▸ hmem
    constructor
    · simp only [wavefront.addvertex, if_pos hmem']
      rw [← h']
    · exact Nat.le_succ _
  · have h1 : w.addvertex x y z =
        ({ w with
            vertices := w.vertices ++
              [(pyround w.crounding x, pyround w.crounding y, pyround w.crounding z)],
            verticeset := (pyround w.crounding x, pyround w.crounding y,
              pyround w.crounding z) :: w.verticeset },
          listIndex (pyround w.crounding x, pyround w.crounding y, pyround w.crounding z)
            (w.vertices ++
              [(pyround w.crounding x, pyround w.crounding y, pyround w.crounding z)])) := by
      simp only [wavefront.addvertex, if_neg hmem]
    rw [h1]
    have hmem' : (pyround w.crounding x', pyround w.crounding y', pyround w.crounding z')
        ∈ (pyround w.crounding x, pyround w.crounding y, pyround w.crounding z)
          :: w.verticeset := h' ▸ List.mem_cons_self _ _
    constructor
    · simp only [wavefront.addvertex, if_pos hmem']
      rw [← h']
    · simp

/-- Witness for C1 at a concrete input: `(1, 2, 3)` and
`(1.0004, 2, 3)` round identically at 3 decimals. -/
theorem addvertex_dedup_idempotent_witness :
    ((wavefront.init false 3).addvertex 1 2 3).1.addvertex (10004 / 10000) 2 3 =
      (((wavefront.init false 3).addvertex 1 2 3).1,
        ((wavefront.init false 3).addvertex 1 2 3).2) ∧
    ((wavefront.init false 3).addvertex 1 2 3).1.vertices.length ≤
      (wavefront.init false 3).vertices.length + 1 :=
  addvertex_dedup_idempotent (wavefront.init false 3) 1 2 3 (10004 / 10000) 2 3
    (by decide!)

/-- C4: `addface` with an argument count other than 3 or 9, and
`addquad` with a count other than 4 or 12, raise the
invalid-argument-count error (`ReferenceError` in the source) with the
builder state unchanged; and `addface` on nine raw scalars behaves
identically to the call on the three positionally condensed triples. -/
theorem addface_addquad_arity :
    (∀ (w : wavefront) (args : List PyVal), args.length ≠ 3 → args.length ≠ 9 →
      w.addface args = (w, some PyErr.referenceError)) ∧
    (∀ (w : wavefront) (args : List PyVal), args.length ≠ 4 → args.length ≠ 12 →
      w.addquad args = (w, some PyErr.referenceError)) ∧
    (∀ (w : wavefront) (q1 q2 q3 q4 q5 q6 q7 q8 q9 : ℚ),
      w.addface [.num q1, .num q2, .num q3, .num q4, .num q5, .num q6, .num q7,
        .num q8, .num q9] =
      w.addface [.seq [.num q1, .num q2, .num q3], .seq [.num q4, .num q5, .num q6],
        .seq [.num q7, .num q8, .num q9]]) := by
  refine ⟨?_, ?_, ?_⟩
  · intro w args h3 h9
    rcases args with _ | ⟨a, _ | ⟨b, _ | ⟨c, _ | ⟨d, r⟩⟩⟩⟩
    · rfl
    · rfl
    · rfl
    · exact absurd rfl h3
    · show (wavefront.addface w _) = _
      rw [wavefront.addface]
      rw [if_neg h9]
  · intro w args h4 h12
    rcases args with _ | ⟨a, _ | ⟨b, _ | ⟨c, _ | ⟨d, _ | ⟨e, r⟩⟩⟩⟩⟩
    · rfl
    · rfl
    · rfl
    · rfl
    · exact absurd rfl h4
    · show (wavefront.addquad w _) = _
      rw [wavefront.addquad]
      rw [if_neg h12]
  · intro w q1 q2 q3 q4 q5 q6 q7 q8 q9
    rfl

/-- Witness for C4 at concrete inputs: a 1-argument call to each method
errors and leaves the fresh builder unchanged, and a concrete 9-scalar
call equals its condensed-triple form. -/
theorem addface_addquad_arity_witness :
    (wavefront.init false 3).addface [.num 1] =
      (wavefront.init false 3, some PyErr.referenceError) ∧
    (wavefront.init false 3).addquad [.num 1] =
      (wavefront.init false 3, some PyErr.referenceError) ∧
    (wavefront.init false 3).addface [.num 1, .num 2, .num 3, .num 4, .num 5,
      .num 6, .num 7, .num 8, .num 9] =
    (wavefront.init false 3).addface [.seq [.num 1, .num 2, .num 3],
      .seq [.num 4, .num 5, .num 6], .seq [.num 7, .num 8, .num 9]] :=
  ⟨addface_addquad_arity.1 (wavefront.init false 3) [.num 1] (by decide) (by decide),
   addface_addquad_arity.2.1 (wavefront.init false 3) [.num 1] (by decide) (by decide),
   addface_addquad_arity.2.2 (wavefront.init false 3) 1 2 3 4 5 6 7 8 9⟩

/-- C6: with double-sided mode enabled, one `addface` call on a valid
triangle appends exactly two faces: the resolved index triple
`(i1, i2, i3)` followed by its exact reverse `(i3, i2, i1)`. -/
theorem addface_doubleface_reversed (w : wavefront) (a b c : ℚ × ℚ × ℚ)
    (hdf : w.doubleface = true) :
    w.addface [pv3 a, pv3 b, pv3 c] =
      (let r1 := w.addvertex a.1 a.2.1 a.2.2
       let r2 := r1.1.addvertex b.1 b.2.1 b.2.2
       let r3 := r2.1.addvertex c.1 c.2.1 c.2.2
       ({ r3.1 with faces := r3.1.faces ++
          [(r1.2, r2.2, r3.2), (r3.2, r2.2, r1.2)] }, none)) := by
  have hdf3 : (((w.addvertex a.1 a.2.1 a.2.2).1.addvertex b.1 b.2.1 b.2.2).1.addvertex
      c.1 c.2.1 c.2.2).1.doubleface = true := by
    rw [addvertex_doubleface, addvertex_doubleface, addvertex_doubleface, hdf]
  have hcore := addface_seq3_core w a.1 a.2.1 a.2.2 b.1 b.2.1 b.2.2 c.1 c.2.1 c.2.2
  simp only [pv3]
  rw [hcore]
  simp only [hdf3, if_true]

/-- Witness for C6 at a concrete input: a double-sided builder and one
triangle. -/
theorem addface_doubleface_reversed_witness :
    (wavefront.init true 3).addface [pv3 (1, 2, 3), pv3 (4, 5, 6), pv3 (7, 8, 9)] =
      (let r1 := (wavefront.init true 3).addvertex (1, 2, 3).1 (1, 2, 3).2.1 (1, 2, 3).2.2
       let r2 := r1.1.addvertex (4, 5, 6).1 (4, 5, 6).2.1 (4, 5, 6).2.2
       let r3 := r2.1.addvertex (7, 8, 9).1 (7, 8, 9).2.1 (7, 8, 9).2.2
       ({ r3.1 with faces := r3.1.faces ++
          [(r1.2, r2.2, r3.2), (r3.2, r2.2, r1.2)] }, none)) :=
  addface_doubleface_reversed (wavefront.init true 3) (1, 2, 3) (4, 5, 6) (7, 8, 9) rfl

/-- C7: `save` never mutates the builder (the returned state is the
input state, matching the source's absence of any assignment to
`self`), and each emitted vertex line carries the stored rounded
coordinates transformed per axis as `coordinate * scale + offset`. -/
theorem save_pure_and_transform (w : wavefront) (zoom offset : ℚ × ℚ × ℚ)
    (ro : Bool) :
    (w.save zoom offset ro).1 = w ∧
    ∀ i, i < w.vertices.length →
      (w.save zoom offset ro).2.getD (i + 1) ObjLine.soff =
        ObjLine.v ((w.vertices.getD i (0, 0, 0)).1 * zoom.1 + offset.1)
          ((w.vertices.getD i (0, 0, 0)).2.1 * zoom.2.1 + offset.2.1)
          ((w.vertices.getD i (0, 0, 0)).2.2 * zoom.2.2 + offset.2.2) := by
  constructor
  · rfl
  · intro i hi
    have hsave : (w.save zoom offset ro).2 =
        ObjLine.header :: (w.vertices.map (fun vt =>
          ObjLine.v (vt.1 * zoom.1 + offset.1) (vt.2.1 * zoom.2.1 + offset.2.1)
            (vt.2.2 * zoom.2.2 + offset.2.2)) ++
          (ObjLine.soff :: w.faces.map (fun tr =>
            ObjLine.f (tr.1 + 1) (tr.2.1 + 1) (tr.2.2 + 1)))) := by
      simp [wavefront.save]
    rw [hsave, List.getD_cons_succ]
    have hilen : i < (w.vertices.map (fun vt =>
        ObjLine.v (vt.1 * zoom.1 + offset.1) (vt.2.1 * zoom.2.1 + offset.2.1)
          (vt.2.2 * zoom.2.2 + offset.2.2))).length := by
      rw [List.length_map]; exact hi
    rw [List.getD_append _ _ _ _ hilen]
    rw [List.getD_eq_getElem _ _ hilen, List.getElem_map,
      List.getD_eq_getElem _ _ hi]

/-- Witness for C7 at a concrete input: one stored vertex, transformed
by zoom `(2,3,4)` and offset `(5,6,7)`. -/
theorem save_pure_and_transform_witness :
    ((((wavefront.init false 3).addvertex 1 2 3).1.save (2, 3, 4) (5, 6, 7) true).1 =
      ((wavefront.init false 3).addvertex 1 2 3).1) ∧
    ((((wavefront.init false 3).addvertex 1 2 3).1.save (2, 3, 4) (5, 6, 7)
        true).2.getD 1 ObjLine.soff = ObjLine.v 7 12 19) := by
  obtain ⟨h1, h2⟩ := save_pure_and_transform
    ((wavefront.init false 3).addvertex 1 2 3).1 (2, 3, 4) (5, 6, 7) true
  refine ⟨h1, ?_⟩
  rw [h2 0 (by decide!)]
  decide!

/-- C8: the serialized content is exactly one header line, one vertex
line per Vertex Table entry in first-insertion order, one `s off`
line, and one face line per face in insertion order whose operands are
the stored 0-based indices plus one. -/
theorem save_line_structure (w : wavefront) (zoom offset : ℚ × ℚ × ℚ) (ro : Bool) :
    (w.save zoom offset ro).2 =
      ObjLine.header :: (w.vertices.map (fun vt =>
        ObjLine.v (vt.1 * zoom.1 + offset.1) (vt.2.1 * zoom.2.1 + offset.2.1)
          (vt.2.2 * zoom.2.2 + offset.2.2)) ++
        ObjLine.soff :: w.faces.map (fun tr =>
          ObjLine.f (tr.1 + 1) (tr.2.1 + 1) (tr.2.2 + 1))) := by
  simp [wavefront.save]

/-- C9: over any operation sequence from a fresh builder, the Vertex
Table is append-only (the table after a prefix of the operations is a
list prefix of the table after the whole sequence, so an index once
assigned keeps denoting the same rounded triple and entries are never
removed or reordered), and every face index is strictly below the
current table length. -/
theorem vertex_table_append_only (df : Bool) (cr : ℕ) (ops1 ops2 : List MeshOp) :
    (runOps (wavefront.init df cr) ops1).vertices <+:
      (runOps (wavefront.init df cr) (ops1 ++ ops2)).vertices ∧
    ∀ t ∈ (runOps (wavefront.init df cr) (ops1 ++ ops2)).faces,
      t.1 < (runOps (wavefront.init df cr) (ops1 ++ ops2)).vertices.length ∧
      t.2.1 < (runOps (wavefront.init df cr) (ops1 ++ ops2)).vertices.length ∧
      t.2.2 < (runOps (wavefront.init df cr) (ops1 ++ ops2)).vertices.length := by
  obtain ⟨hw1, hp1, hk1⟩ := runOps_preserves ops1 (wavefront.init df cr) (wfInv_init df cr)
  rw [runOps_append]
  obtain ⟨hw2, hp2, hk2⟩ :=
    runOps_preserves ops2 (runOps (wavefront.init df cr) ops1) hw1
  refine ⟨hp2, ?_⟩
  have hfk : facesOk (runOps (runOps (wavefront.init df cr) ops1) ops2) := by
    apply hk2
    apply hk1
    intro t ht
    exact absurd ht (List.not_mem_nil t)
  exact fun t ht => hfk t ht

/-! ### The cost of `addvertex`'s index retrieval (claim C5)

The source keeps `verticeset` so that the membership test is a hash
lookup, but then retrieves the index with `self.vertices.index(...)`,
a linear scan.  The following instrumented run inserts `n` pairwise
distinct vertices `(i, 0, 0)` and adds up the scan lengths. -/

/-- Builder state after inserting `(0,0,0), (1,0,0), …, (n-1,0,0)`. -/
def insertSeq (n : ℕ) : wavefront :=
  (List.range n).foldl (fun w (i : ℕ) => (w.addvertex (i : ℚ) 0 0).1) (wavefront.init false 3)

/-- Total number of `list.index` comparisons over those `n` calls. -/
def insertSeqCost (n : ℕ) : ℕ :=
  ((List.range n).map (fun i => (insertSeq i).addvertexCost (i : ℚ) 0 0)).sum

theorem pyround_natCast (j : ℕ) : pyround 3 (j : ℚ) = j := by
  rw [pyround_eq_round]
  have h : ((j : ℚ) * (10 : ℚ) ^ 3) = ((j * 1000 : ℕ) : ℚ) := by push_cast; ring
  rw [h, round_natCast]
  push_cast
  ring

theorem insertSeq_succ (n : ℕ) :
    insertSeq (n + 1) = ((insertSeq n).addvertex (n : ℚ) 0 0).1 := by
  rw [insertSeq, insertSeq, List.range_succ, List.foldl_append]
  rfl

theorem natPoint_not_mem (n : ℕ) : (((n : ℚ), 0, 0) : ℚ × ℚ × ℚ) ∉
    (List.range n).map (fun (j : ℕ) => ((j : ℚ), 0, 0)) := by
  intro hmem
  obtain ⟨j, hj, hje⟩ := List.mem_map.mp hmem
  have h1 : (j : ℚ) = (n : ℚ) := congrArg Prod.fst hje
  have h2 : j = n := Nat.cast_injective h1
  rw [List.mem_range] at hj
  omega

theorem pyround_zero : pyround 3 0 = 0 := by
  have h := pyround_natCast 0
  simpa using h

theorem insertSeq_state (n : ℕ) :
    (insertSeq n).vertices = (List.range n).map (fun (j : ℕ) => ((j : ℚ), 0, 0)) ∧
    (∀ p : ℚ × ℚ × ℚ, p ∈ (insertSeq n).verticeset ↔ p ∈ (insertSeq n).vertices) ∧
    (insertSeq n).crounding = 3 := by
  induction n with
  | zero =>
    refine ⟨rfl, ?_, rfl⟩
    intro p
    constructor
    · intro h; exact absurd h (List.not_mem_nil p)
    · intro h; exact absurd h (List.not_mem_nil p)
  | succ n ih =>
    obtain ⟨hv, hs, hc⟩ := ih
    have hp : (pyround (insertSeq n).crounding ((n : ℚ)),
        pyround (insertSeq n).crounding 0, pyround (insertSeq n).crounding 0) =
        (((n : ℚ), 0, 0) : ℚ × ℚ × ℚ) := by
      rw [hc, pyround_natCast, pyround_zero]
    have hin : (pyround (insertSeq n).crounding ((n : ℚ)),
        pyround (insertSeq n).crounding 0, pyround (insertSeq n).crounding 0)
        ∉ (insertSeq n).verticeset := by
      rw [hp]
      intro hmem
      exact natPoint_not_mem n (hv ▸ (hs _).mp hmem)
    have heq : insertSeq (n + 1) =
        { insertSeq n with
            vertices := (insertSeq n).vertices ++
              [(pyround (insertSeq n).crounding ((n : ℚ)),
                pyround (insertSeq n).crounding 0, pyround (insertSeq n).crounding 0)],
            verticeset := (pyround (insertSeq n).crounding ((n : ℚ)),
              pyround (insertSeq n).crounding 0, pyround (insertSeq n).crounding 0)
              :: (insertSeq n).verticeset } := by
      rw [insertSeq_succ]
      simp only [wavefront.addvertex, if_neg hin]
    rw [heq]
    refine ⟨?_, ?_, hc⟩
    · show (insertSeq n).vertices ++ [_] = _
      rw [hp, hv, List.range_succ, List.map_append]
      rfl
    · intro q
      show q ∈ _ :: (insertSeq n).verticeset ↔ q ∈ (insertSeq n).vertices ++ [_]
      constructor
      · intro hq
        rcases List.mem_cons.mp hq with rfl | hq'
        · exact List.mem_append_right _ (List.mem_singleton.mpr rfl)
        · exact List.mem_append_left _ ((hs q).mp hq')
      · intro hq
        rcases List.mem_append.mp hq with hq' | hq'
        · exact List.mem_cons_of_mem _ ((hs q).mpr hq')
        · exact (List.mem_singleton.mp hq') ▸ List.mem_cons_self _ _

theorem insertSeq_cost_step (n : ℕ) :
    (insertSeq n).addvertexCost ((n : ℚ)) 0 0 = n + 1 := by
  have hc := (insertSeq_state n).2.2
  have hv1 := (insertSeq_state (n + 1)).1
  have hp : (pyround (insertSeq n).crounding ((n : ℚ)),
      pyround (insertSeq n).crounding 0, pyround (insertSeq n).crounding 0) =
      (((n : ℚ), 0, 0) : ℚ × ℚ × ℚ) := by
    rw [hc, pyround_natCast, pyround_zero]
  show listIndex (pyround (insertSeq n).crounding ((n : ℚ)),
      pyround (insertSeq n).crounding 0, pyround (insertSeq n).crounding 0)
      ((insertSeq n).addvertex ((n : ℚ)) 0 0).1.vertices + 1 = n + 1
  rw [← insertSeq_succ, hv1, hp, List.range_succ, List.map_append]
  simp only [List.map_cons, List.map_nil]
  rw [listIndex_append_self (natPoint_not_mem n)]
  simp

/-- C5 (refuted by the code): the `self.vertices.index(...)` retrieval
in `addvertex` is a linear scan, so the total comparison count over `n`
insertions of pairwise distinct vertices is quadratic —
`insertSeqCost n = n (n+1) / 2` — not the linear total an amortized
constant-time hash lookup would give. -/
theorem addvertex_linear_scan_cost (n : ℕ) : insertSeqCost n * 2 = n * (n + 1) := by
  induction n with
  | zero => rfl
  | succ n ih =>
    have hstep : insertSeqCost (n + 1) = insertSeqCost n + (n + 1) := by
      rw [insertSeqCost, insertSeqCost, List.range_succ, List.map_append, List.sum_append]
      simp [insertSeq_cost_step]
    rw [hstep, Nat.add_mul, ih]
    ring

/-! ### Layer heights and face counts -/

theorem headD_mem {α : Type} {l : List α} (h : l ≠ []) (d : α) : l.headD d ∈ l := by
  cases l with
  | nil => exact absurd rfl h
  | cons a t => exact List.mem_cons_self a t

theorem gearGeometry_row_z (M : pymath) (innerrad outerrad : ℚ) (teeth : ℕ)
    (thickness : ℚ) (toothfunc : Option (ℚ → ℚ)) (toothpts : ℕ)
    (anglefunc : Option (ℚ → ℚ)) (vlayers : ℕ) (l : ℕ)
    (hN : 1 ≤ teeth * toothpts) :
    ∀ p ∈ (gearGeometry M innerrad outerrad teeth thickness toothfunc toothpts
        anglefunc vlayers).getD l [],
      p.2.2 = (l : ℚ) * (thickness / ((effLayers anglefunc vlayers : ℚ) - 1)) := by
  intro p hp
  by_cases hl : l < effLayers anglefunc vlayers
  · have hlen : l < (gearGeometry M innerrad outerrad teeth thickness toothfunc
        toothpts anglefunc vlayers).length := by
      rw [gearGeometry_length]; exact hl
    rw [List.getD_eq_getElem _ _ hlen] at hp
    simp only [gearGeometry, List.getElem_map, List.getElem_range] at hp
    rcases List.mem_append.mp hp with h | h
    · obtain ⟨lstep, hstep, hq⟩ := List.mem_map.mp h
      rw [← hq]
    · rw [List.mem_singleton] at h
      subst h
      have hne : (List.range (gearProfile M innerrad outerrad teeth toothpts
          toothfunc).length).map (fun (lstep : ℕ) =>
            ((M.cos (M.pi * 2 / ((gearProfile M innerrad outerrad teeth toothpts
              toothfunc).length : ℚ) * (lstep : ℚ) +
              effAngle anglefunc ((l : ℚ) / ((effLayers anglefunc vlayers : ℚ) - 1))) *
              (gearProfile M innerrad outerrad teeth toothpts toothfunc).getD lstep 0,
              M.sin (M.pi * 2 / ((gearProfile M innerrad outerrad teeth toothpts
                toothfunc).length : ℚ) * (lstep : ℚ) +
                effAngle anglefunc ((l : ℚ) / ((effLayers anglefunc vlayers : ℚ) - 1))) *
                (gearProfile M innerrad outerrad teeth toothpts toothfunc).getD lstep 0,
              (l : ℚ) * (thickness / ((effLayers anglefunc vlayers : ℚ) - 1))))) ≠ [] := by
        intro hnil
        have := congrArg List.length hnil
        rw [List.length_map, List.length_range, gearProfile_length,
          List.length_nil] at this
        omega
      have hmem := headD_mem hne ((0 : ℚ), (0 : ℚ), (0 : ℚ))
      obtain ⟨lstep, hstep, hq⟩ := List.mem_map.mp hmem
      rw [← hq]
  · rw [List.getD_eq_default] at hp
    · exact absurd hp (List.not_mem_nil p)
    · rw [gearGeometry_length]; omega

/-- C3: with no `anglefunc`, the generator uses exactly 2 vertical
layers regardless of the `vlayers` argument: the generated point matrix
has exactly two rows, the first entirely at height `z = 0` and the
second entirely at `z = thickness`. -/
theorem spur_forces_two_layers (M : pymath) (innerrad outerrad : ℚ) (teeth : ℕ)
    (thickness : ℚ) (toothfunc : Option (ℚ → ℚ)) (toothpts : ℕ) (vlayers : ℕ)
    (hN : 1 ≤ teeth * toothpts) :
    (gearGeometry M innerrad outerrad teeth thickness toothfunc toothpts none
        vlayers).length = 2 ∧
    (∀ p ∈ (gearGeometry M innerrad outerrad teeth thickness toothfunc toothpts
        none vlayers).getD 0 [], p.2.2 = 0) ∧
    (∀ p ∈ (gearGeometry M innerrad outerrad teeth thickness toothfunc toothpts
        none vlayers).getD 1 [], p.2.2 = thickness) := by
  refine ⟨by rw [gearGeometry_length]; rfl, ?_, ?_⟩
  · intro p hp
    have h := gearGeometry_row_z M innerrad outerrad teeth thickness toothfunc
      toothpts none vlayers 0 hN p hp
    simpa using h
  · intro p hp
    have h := gearGeometry_row_z M innerrad outerrad teeth thickness toothfunc
      toothpts none vlayers 1 hN p hp
    rw [h]
    show (1 : ℚ) * (thickness / (((2 : ℕ) : ℚ) - 1)) = thickness
    norm_num

/-- Concrete instantiation of the abstracted float primitives, used by
the witnesses below (any instance works for the theorems). -/
def pymathTest : pymath := ⟨3, fun q => q + 1, fun _ => 0⟩

/-- Witness for C3 at a concrete input: a 40-layer request with no
angle function still produces exactly two layers. -/
theorem spur_forces_two_layers_witness :
    (gearGeometry pymathTest 2 4 1 5 (some (fun _ => 1 / 2)) 1 none 40).length = 2 :=
  (spur_forces_two_layers pymathTest 2 4 1 5 (some (fun _ => 1 / 2)) 1 40
    (by decide)).1

theorem meshFaces_length {α : Type} (L N : ℕ) (f : ℕ → ℕ → α) (c0 c1 : α) :
    (meshFaces L N f c0 c1).length = 2 * N * (L - 1) + 2 * N := by
  rw [meshFaces, List.length_append]
  have hside : (sideFaces L N f).length = (L - 1) * (N * 2) := by
    rw [sideFaces, List.length_flatMap]
    have hinner : ∀ l ∈ List.range (L - 1),
        (List.length ∘ fun l => (List.range N).flatMap (fun k =>
          [(f l k, f l (k + 1), f (l + 1) (k + 1)),
           (f l k, f (l + 1) (k + 1), f (l + 1) k)])) l = N * 2 := by
      intro l _
      show ((List.range N).flatMap (fun k =>
        [(f l k, f l (k + 1), f (l + 1) (k + 1)),
         (f l k, f (l + 1) (k + 1), f (l + 1) k)])).length = N * 2
      rw [List.length_flatMap]
      have h2 : ∀ k ∈ List.range N, (List.length ∘ fun k =>
          [(f l k, f l (k + 1), f (l + 1) (k + 1)),
           (f l k, f (l + 1) (k + 1), f (l + 1) k)]) k = 2 := by
        intro k _
        rfl
      rw [List.map_congr_left h2, List.map_const', List.length_range,
        List.sum_const_nat]
    rw [List.map_congr_left hinner, List.map_const', List.length_range,
      List.sum_const_nat]
  have hcap : (capFaces L N f c0 c1).length = N * 2 := by
    rw [capFaces, List.length_flatMap]
    have h2 : ∀ k ∈ List.range N, (List.length ∘ fun k =>
        [(f 0 (k + 1), f 0 k, c0), (f (L - 1) k, f (L - 1) (k + 1), c1)]) k = 2 := by
      intro k _
      rfl
    rw [List.map_congr_left h2, List.map_const', List.length_range,
      List.sum_const_nat]
  rw [hside, hcap]
  ring

/-- C10: the generator's builder is single-sided (`doubleface = false`,
each stitched triangle appended exactly once) and its face list has
length `2·N·(vlayers_used − 1) + 2·N` with `N = teeth · toothpts` and
`vlayers_used` the effective layer count. -/
theorem gear_single_sided_face_count (M : pymath) (innerrad outerrad : ℚ)
    (teeth : ℕ) (thickness : ℚ) (toothfunc : Option (ℚ → ℚ)) (toothpts : ℕ)
    (anglefunc : Option (ℚ → ℚ)) (vlayers : ℕ) (xyrounding : ℕ) :
    (gearObject M innerrad outerrad teeth thickness toothfunc toothpts anglefunc
        vlayers xyrounding).doubleface = false ∧
    (gearObject M innerrad outerrad teeth thickness toothfunc toothpts anglefunc
        vlayers xyrounding).faces.length =
      2 * (teeth * toothpts) * (effLayers anglefunc vlayers - 1) +
        2 * (teeth * toothpts) := by
  obtain ⟨_, _, hdf, _, _, hfaces⟩ := runFaceCalls_spec
    (meshFaces (effLayers anglefunc vlayers)
      (gearProfile M innerrad outerrad teeth toothpts toothfunc).length
      (gearPoint M innerrad outerrad teeth thickness toothfunc toothpts anglefunc
        vlayers)
      ((0 : ℚ), (0 : ℚ), (0 : ℚ)) ((0 : ℚ), (0 : ℚ), thickness))
    (wavefront.init false xyrounding) (wfInv_init false xyrounding) rfl
  rw [gearObject_eq_run]
  refine ⟨hdf, ?_⟩
  rw [hfaces]
  show (([] : List (ℕ × ℕ × ℕ)) ++ _).length = _
  rw [List.nil_append, List.length_map, meshFaces_length, gearProfile_length]

/-! ### Watertightness: edges and face counts -/

/-- Whether the unordered pair `{a, b}` is an edge of the triangle `t`
(in either orientation, along any of the three sides). -/
def hasEdge {α : Type} [DecidableEq α] (a b : α) (t : α × α × α) : Bool :=
  decide ((a = t.1 ∧ b = t.2.1) ∨ (a = t.2.1 ∧ b = t.1) ∨
    (a = t.2.1 ∧ b = t.2.2) ∨ (a = t.2.2 ∧ b = t.2.1) ∨
    (a = t.1 ∧ b = t.2.2) ∨ (a = t.2.2 ∧ b = t.1))

/-- Number of faces of the list that contain the edge `{a, b}`. -/
def edgeFaceCount {α : Type} [DecidableEq α] (faces : List (α × α × α))
    (a b : α) : ℕ :=
  faces.countP (hasEdge a b)

/-- The standard closed-manifold condition: every edge that occurs in
the face list belongs to exactly two faces. -/
def meshWatertight {α : Type} [DecidableEq α] (faces : List (α × α × α)) : Prop :=
  ∀ a b : α, (∃ t ∈ faces, hasEdge a b t = true) → edgeFaceCount faces a b = 2

theorem hasEdge_symm {α : Type} [DecidableEq α] (a b : α) (t : α × α × α) :
    hasEdge a b t = hasEdge b a t := by
  simp only [hasEdge, decide_eq_decide]
  tauto

theorem edgeFaceCount_symm {α : Type} [DecidableEq α]
    (faces : List (α × α × α)) (a b : α) :
    edgeFaceCount faces a b = edgeFaceCount faces b a := by
  unfold edgeFaceCount
  exact List.countP_congr (fun t _ => by rw [hasEdge_symm a b t])

theorem countP_flatMap' {α β : Type} (p : β → Bool) (l : List α) (g : α → List β) :
    (l.flatMap g).countP p = (l.map (fun a => (g a).countP p)).sum := by
  induction l with
  | nil => rfl
  | cons a rest ih =>
    rw [List.flatMap_cons, List.countP_append, List.map_cons, List.sum_cons, ih]

theorem sum_map_range (g : ℕ → ℕ) (n : ℕ) :
    ((List.range n).map g).sum = ∑ i ∈ Finset.range n, g i := by
  induction n with
  | zero => rfl
  | succ n ih =>
    rw [List.range_succ, List.map_append, List.sum_append, Finset.sum_range_succ, ih]
    simp

theorem countP_pair {β : Type} (p : β → Bool) (t1 t2 : β) :
    ([t1, t2] : List β).countP p =
      (if p t1 then 1 else 0) + (if p t2 then 1 else 0) := by
  rw [List.countP_cons, List.countP_cons, List.countP_nil, Nat.zero_add, Nat.add_comm]

theorem edgeFaceCount_meshFaces {α : Type} [DecidableEq α] (L N : ℕ)
    (f : ℕ → ℕ → α) (c0 c1 : α) (a b : α) :
    edgeFaceCount (meshFaces L N f c0 c1) a b =
      ((∑ l ∈ Finset.range (L - 1), ∑ k ∈ Finset.range N,
        ((if hasEdge a b (f l k, f l (k + 1), f (l + 1) (k + 1)) then 1 else 0) +
         (if hasEdge a b (f l k, f (l + 1) (k + 1), f (l + 1) k) then 1 else 0))) +
       (∑ k ∈ Finset.range N,
        ((if hasEdge a b (f 0 (k + 1), f 0 k, c0) then 1 else 0) +
         (if hasEdge a b (f (L - 1) k, f (L - 1) (k + 1), c1) then 1 else 0)))) := by
  rw [edgeFaceCount, meshFaces, List.countP_append]
  congr 1
  · rw [sideFaces, countP_flatMap', sum_map_range]
    refine Finset.sum_congr rfl (fun l _ => ?_)
    rw [countP_flatMap', sum_map_range]
    exact Finset.sum_congr rfl (fun k _ => countP_pair _ _ _)
  · rw [capFaces, countP_flatMap', sum_map_range]
    exact Finset.sum_congr rfl (fun k _ => countP_pair _ _ _)

/-! ### The combinatorial mesh over symbolic vertices

Vertices are symbols: `Sum.inl (l, k)` for the grid point of layer `l`
and profile index `k` (taken modulo `N`, which realizes the layer's
loop-closing duplicate), `Sum.inr false` for the floor center and
`Sum.inr true` for the ceiling center. -/

/-- The symbolic grid vertex of layer `l`, profile index `k` (mod `N`). -/
def symV (N l k : ℕ) : (ℕ × ℕ) ⊕ Bool := Sum.inl (l, k % N)

/-- The generator's face pattern over symbolic vertices. -/
def symFaces (L N : ℕ) :
    List ((((ℕ × ℕ) ⊕ Bool)) × (((ℕ × ℕ) ⊕ Bool)) × (((ℕ × ℕ) ⊕ Bool))) :=
  meshFaces L N (symV N) (Sum.inr false) (Sum.inr true)

theorem succMod {k N : ℕ} (hk : k < N) :
    (k + 1) % N = if k + 1 = N then 0 else k + 1 := by
  by_cases h : k + 1 = N
  · rw [if_pos h, h, Nat.mod_self]
  · rw [if_neg h, Nat.mod_eq_of_lt (by omega)]

theorem symV_mod (N l k : ℕ) : symV N l (k % N) = symV N l k := by
  unfold symV
  rw [Nat.mod_mod]

theorem single_sum_ind (B k0 c : ℕ) (hk0 : k0 < B) :
    (∑ k ∈ Finset.range B, (if k = k0 then c else 0)) = c := by
  rw [Finset.sum_ite_eq' (Finset.range B) k0 (fun _ => c)]
  rw [if_pos (Finset.mem_range.mpr hk0)]

theorem single_sum_ind_succmod (B k0 c : ℕ) (hk0 : k0 < B) :
    (∑ k ∈ Finset.range B, (if (k + 1) % B = k0 then c else 0)) = c := by
  have h : ∀ k ∈ Finset.range B, (if (k + 1) % B = k0 then c else 0) =
      (if k = (if k0 = 0 then B - 1 else k0 - 1) then c else 0) := by
    intro k hk
    rw [Finset.mem_range] at hk
    refine if_congr ?_ rfl rfl
    rw [succMod hk]
    split_ifs <;> omega
  rw [Finset.sum_congr rfl h, Finset.sum_ite_eq' (Finset.range B) _ (fun _ => c)]
  rw [if_pos (Finset.mem_range.mpr (by split_ifs <;> omega))]

theorem double_sum_ind (A B l0 k0 c : ℕ) (hk0 : k0 < B) :
    (∑ l ∈ Finset.range A, ∑ k ∈ Finset.range B,
      (if l = l0 ∧ k = k0 then c else 0)) = if l0 < A then c else 0 := by
  have h : ∀ l ∈ Finset.range A, (∑ k ∈ Finset.range B,
      (if l = l0 ∧ k = k0 then c else 0)) = (if l = l0 then c else 0) := by
    intro l _
    by_cases hll : l = l0
    · have hc : ∀ k ∈ Finset.range B, (if l = l0 ∧ k = k0 then c else 0) =
          (if k = k0 then c else 0) := fun k _ => if_congr (by simp [hll]) rfl rfl
      rw [Finset.sum_congr rfl hc, single_sum_ind B k0 c hk0, if_pos hll]
    · have hc : ∀ k ∈ Finset.range B, (if l = l0 ∧ k = k0 then c else 0) =
          (0 : ℕ) := fun k _ => if_neg (fun hand => hll hand.1)
      rw [Finset.sum_congr rfl hc, Finset.sum_const_zero, if_neg hll]
  rw [Finset.sum_congr rfl h, Finset.sum_ite_eq' _ _ (fun _ => c)]
  simp only [Finset.mem_range]

theorem double_sum_ind_shift (A B l0 k0 c : ℕ) (hk0 : k0 < B) :
    (∑ l ∈ Finset.range A, ∑ k ∈ Finset.range B,
      (if l + 1 = l0 ∧ k = k0 then c else 0)) = if 1 ≤ l0 ∧ l0 ≤ A then c else 0 := by
  by_cases h0 : l0 = 0
  · have h : ∀ l ∈ Finset.range A, (∑ k ∈ Finset.range B,
        (if l + 1 = l0 ∧ k = k0 then c else 0)) = (0 : ℕ) := by
      intro l _
      have hc : ∀ k ∈ Finset.range B, (if l + 1 = l0 ∧ k = k0 then c else 0) =
          (0 : ℕ) := fun k _ => if_neg (by omega)
      rw [Finset.sum_congr rfl hc, Finset.sum_const_zero]
    rw [Finset.sum_congr rfl h, Finset.sum_const_zero, if_neg (by omega)]
  · have h : ∀ l ∈ Finset.range A, ∀ k ∈ Finset.range B,
        (if l + 1 = l0 ∧ k = k0 then c else 0) =
        (if l = l0 - 1 ∧ k = k0 then c else 0) :=
      fun l _ k _ => if_congr (by omega) rfl rfl
    rw [Finset.sum_congr rfl (fun l hl => Finset.sum_congr rfl (h l hl)),
      double_sum_ind A B (l0 - 1) k0 c hk0]
    exact if_congr (by omega) rfl rfl

theorem double_sum_ind_succmod (A B l0 k0 c : ℕ) (hk0 : k0 < B) :
    (∑ l ∈ Finset.range A, ∑ k ∈ Finset.range B,
      (if l = l0 ∧ (k + 1) % B = k0 then c else 0)) = if l0 < A then c else 0 := by
  have h : ∀ l ∈ Finset.range A, (∑ k ∈ Finset.range B,
      (if l = l0 ∧ (k + 1) % B = k0 then c else 0)) = (if l = l0 then c else 0) := by
    intro l _
    by_cases hll : l = l0
    · have hc : ∀ k ∈ Finset.range B, (if l = l0 ∧ (k + 1) % B = k0 then c else 0) =
          (if (k + 1) % B = k0 then c else 0) := fun k _ =>
        if_congr (by simp [hll]) rfl rfl
      rw [Finset.sum_congr rfl hc, single_sum_ind_succmod B k0 c hk0, if_pos hll]
    · have hc : ∀ k ∈ Finset.range B, (if l = l0 ∧ (k + 1) % B = k0 then c else 0) =
          (0 : ℕ) := fun k _ => if_neg (fun hand => hll hand.1)
      rw [Finset.sum_congr rfl hc, Finset.sum_const_zero, if_neg hll]
  rw [Finset.sum_congr rfl h, Finset.sum_ite_eq' _ _ (fun _ => c)]
  simp only [Finset.mem_range]

theorem single_sum_ind_cond (B k0 c : ℕ) (P : Prop) [Decidable P] (hk0 : k0 < B) :
    (∑ k ∈ Finset.range B, (if P ∧ k = k0 then c else 0)) = if P then c else 0 := by
  by_cases hp : P
  · have hc : ∀ k ∈ Finset.range B, (if P ∧ k = k0 then c else 0) =
        (if k = k0 then c else 0) := fun k _ => if_congr (by simp [hp]) rfl rfl
    rw [Finset.sum_congr rfl hc, single_sum_ind B k0 c hk0, if_pos hp]
  · have hc : ∀ k ∈ Finset.range B, (if P ∧ k = k0 then c else 0) = (0 : ℕ) :=
      fun k _ => if_neg (fun hand => hp hand.1)
    rw [Finset.sum_congr rfl hc, Finset.sum_const_zero, if_neg hp]

theorem double_sum_add (A B : ℕ) (u v : ℕ → ℕ → ℕ) :
    (∑ l ∈ Finset.range A, ∑ k ∈ Finset.range B, (u l k + v l k)) =
    (∑ l ∈ Finset.range A, ∑ k ∈ Finset.range B, u l k) +
    (∑ l ∈ Finset.range A, ∑ k ∈ Finset.range B, v l k) := by
  rw [← Finset.sum_add_distrib]
  exact Finset.sum_congr rfl (fun l _ => Finset.sum_add_distrib)

theorem countH (L N l0 k0 : ℕ) (hL : 2 ≤ L) (hN : 3 ≤ N) (hl0 : l0 ≤ L - 1)
    (hk0 : k0 < N) :
    edgeFaceCount (symFaces L N) (symV N l0 k0) (symV N l0 (k0 + 1)) = 2 := by
  rw [symFaces, edgeFaceCount_meshFaces]
  have hT1 : ∀ l ∈ Finset.range (L - 1), ∀ k ∈ Finset.range N,
      (if hasEdge (symV N l0 k0) (symV N l0 (k0 + 1))
          (symV N l k, symV N l (k + 1), symV N (l + 1) (k + 1)) then (1 : ℕ) else 0) =
      (if l = l0 ∧ k = k0 then 1 else 0) := by
    intro l hl k hk
    rw [Finset.mem_range] at hl hk
    refine if_congr ?_ rfl rfl
    simp only [hasEdge, symV, decide_eq_true_eq, Prod.mk.injEq, Sum.inl.injEq,
      reduceCtorEq, false_and, and_false, false_or, or_false]
    rw [Nat.mod_eq_of_lt hk0, Nat.mod_eq_of_lt hk, succMod hk0, succMod hk]
    split_ifs <;>
        first
          | omega
          | (simp only [and_false, false_and, or_false, false_or, and_true, true_and,
               iff_false, false_iff, iff_true, true_iff]
             omega)
          | simp only [and_false, false_and, or_false, false_or, iff_false, false_iff]
  have hT2 : ∀ l ∈ Finset.range (L - 1), ∀ k ∈ Finset.range N,
      (if hasEdge (symV N l0 k0) (symV N l0 (k0 + 1))
          (symV N l k, symV N (l + 1) (k + 1), symV N (l + 1) k) then (1 : ℕ) else 0) =
      (if l + 1 = l0 ∧ k = k0 then 1 else 0) := by
    intro l hl k hk
    rw [Finset.mem_range] at hl hk
    refine if_congr ?_ rfl rfl
    simp only [hasEdge, symV, decide_eq_true_eq, Prod.mk.injEq, Sum.inl.injEq,
      reduceCtorEq, false_and, and_false, false_or, or_false]
    rw [Nat.mod_eq_of_lt hk0, Nat.mod_eq_of_lt hk, succMod hk0, succMod hk]
    split_ifs <;>
        first
          | omega
          | (simp only [and_false, false_and, or_false, false_or, and_true, true_and,
               iff_false, false_iff, iff_true, true_iff]
             omega)
          | simp only [and_false, false_and, or_false, false_or, iff_false, false_iff]
  have hFl : ∀ k ∈ Finset.range N,
      (if hasEdge (symV N l0 k0) (symV N l0 (k0 + 1))
          (symV N 0 (k + 1), symV N 0 k, Sum.inr false) then (1 : ℕ) else 0) =
      (if l0 = 0 ∧ k = k0 then 1 else 0) := by
    intro k hk
    rw [Finset.mem_range] at hk
    refine if_congr ?_ rfl rfl
    simp only [hasEdge, symV, decide_eq_true_eq, Prod.mk.injEq, Sum.inl.injEq,
      reduceCtorEq, false_and, and_false, false_or, or_false]
    rw [Nat.mod_eq_of_lt hk0, Nat.mod_eq_of_lt hk, succMod hk0, succMod hk]
    split_ifs <;>
        first
          | omega
          | (simp only [and_false, false_and, or_false, false_or, and_true, true_and,
               iff_false, false_iff, iff_true, true_iff]
             omega)
          | simp only [and_false, false_and, or_false, false_or, iff_false, false_iff]
  have hCl : ∀ k ∈ Finset.range N,
      (if hasEdge (symV N l0 k0) (symV N l0 (k0 + 1))
          (symV N (L - 1) k, symV N (L - 1) (k + 1), Sum.inr true) then (1 : ℕ) else 0) =
      (if l0 = L - 1 ∧ k = k0 then 1 else 0) := by
    intro k hk
    rw [Finset.mem_range] at hk
    refine if_congr ?_ rfl rfl
    simp only [hasEdge, symV, decide_eq_true_eq, Prod.mk.injEq, Sum.inl.injEq,
      reduceCtorEq, false_and, and_false, false_or, or_false]
    rw [Nat.mod_eq_of_lt hk0, Nat.mod_eq_of_lt hk, succMod hk0, succMod hk]
    split_ifs <;>
        first
          | omega
          | (simp only [and_false, false_and, or_false, false_or, and_true, true_and,
               iff_false, false_iff, iff_true, true_iff]
             omega)
          | simp only [and_false, false_and, or_false, false_or, iff_false, false_iff]
  have hside : (∑ l ∈ Finset.range (L - 1), ∑ k ∈ Finset.range N,
      ((if hasEdge (symV N l0 k0) (symV N l0 (k0 + 1))
          (symV N l k, symV N l (k + 1), symV N (l + 1) (k + 1)) then (1 : ℕ) else 0) +
       (if hasEdge (symV N l0 k0) (symV N l0 (k0 + 1))
          (symV N l k, symV N (l + 1) (k + 1), symV N (l + 1) k) then 1 else 0))) =
      (∑ l ∈ Finset.range (L - 1), ∑ k ∈ Finset.range N,
        ((if l = l0 ∧ k = k0 then (1 : ℕ) else 0) +
         (if l + 1 = l0 ∧ k = k0 then 1 else 0))) :=
    Finset.sum_congr rfl (fun l hl => Finset.sum_congr rfl (fun k hk => by
      rw [hT1 l hl k hk, hT2 l hl k hk]))
  have hcap : (∑ k ∈ Finset.range N,
      ((if hasEdge (symV N l0 k0) (symV N l0 (k0 + 1))
          (symV N 0 (k + 1), symV N 0 k, Sum.inr false) then (1 : ℕ) else 0) +
       (if hasEdge (symV N l0 k0) (symV N l0 (k0 + 1))
          (symV N (L - 1) k, symV N (L - 1) (k + 1), Sum.inr true) then 1 else 0))) =
      (∑ k ∈ Finset.range N,
        ((if l0 = 0 ∧ k = k0 then (1 : ℕ) else 0) +
         (if l0 = L - 1 ∧ k = k0 then 1 else 0))) :=
    Finset.sum_congr rfl (fun k hk => by rw [hFl k hk, hCl k hk])
  rw [hside, hcap, double_sum_add, Finset.sum_add_distrib,
    double_sum_ind (L - 1) N l0 k0 1 hk0, double_sum_ind_shift (L - 1) N l0 k0 1 hk0,
    single_sum_ind_cond N k0 1 (l0 = 0) hk0, single_sum_ind_cond N k0 1 (l0 = L - 1) hk0]
  split_ifs <;>
        first
          | omega
          | (simp only [and_false, false_and, or_false, false_or, and_true, true_and,
               iff_false, false_iff, iff_true, true_iff]
             omega)
          | simp only [and_false, false_and, or_false, false_or, iff_false, false_iff]

theorem countV (L N l0 k0 : ℕ) (hL : 2 ≤ L) (hN : 3 ≤ N) (hl0 : l0 < L - 1)
    (hk0 : k0 < N) :
    edgeFaceCount (symFaces L N) (symV N l0 k0) (symV N (l0 + 1) k0) = 2 := by
  rw [symFaces, edgeFaceCount_meshFaces]
  have hT1 : ∀ l ∈ Finset.range (L - 1), ∀ k ∈ Finset.range N,
      (if hasEdge (symV N l0 k0) (symV N (l0 + 1) k0)
          (symV N l k, symV N l (k + 1), symV N (l + 1) (k + 1)) then (1 : ℕ) else 0) =
      (if l = l0 ∧ (k + 1) % N = k0 then 1 else 0) := by
    intro l hl k hk
    rw [Finset.mem_range] at hl hk
    refine if_congr ?_ rfl rfl
    simp only [hasEdge, symV, decide_eq_true_eq, Prod.mk.injEq, Sum.inl.injEq,
      reduceCtorEq, false_and, and_false, false_or, or_false]
    rw [Nat.mod_eq_of_lt hk0, Nat.mod_eq_of_lt hk, succMod hk]
    split_ifs <;>
        first
          | omega
          | (simp only [and_false, false_and, or_false, false_or, and_true, true_and,
               iff_false, false_iff, iff_true, true_iff]
             omega)
          | simp only [and_false, false_and, or_false, false_or, iff_false, false_iff]
  have hT2 : ∀ l ∈ Finset.range (L - 1), ∀ k ∈ Finset.range N,
      (if hasEdge (symV N l0 k0) (symV N (l0 + 1) k0)
          (symV N l k, symV N (l + 1) (k + 1), symV N (l + 1) k) then (1 : ℕ) else 0) =
      (if l = l0 ∧ k = k0 then 1 else 0) := by
    intro l hl k hk
    rw [Finset.mem_range] at hl hk
    refine if_congr ?_ rfl rfl
    simp only [hasEdge, symV, decide_eq_true_eq, Prod.mk.injEq, Sum.inl.injEq,
      reduceCtorEq, false_and, and_false, false_or, or_false]
    rw [Nat.mod_eq_of_lt hk0, Nat.mod_eq_of_lt hk, succMod hk]
    split_ifs <;>
        first
          | omega
          | (simp only [and_false, false_and, or_false, false_or, and_true, true_and,
               iff_false, false_iff, iff_true, true_iff]
             omega)
          | simp only [and_false, false_and, or_false, false_or, iff_false, false_iff]
  have hFl : ∀ k ∈ Finset.range N,
      (if hasEdge (symV N l0 k0) (symV N (l0 + 1) k0)
          (symV N 0 (k + 1), symV N 0 k, Sum.inr false) then (1 : ℕ) else 0) =
      (0 : ℕ) := by
    intro k hk
    rw [Finset.mem_range] at hk
    refine if_neg ?_
    simp only [hasEdge, symV, decide_eq_true_eq, Prod.mk.injEq, Sum.inl.injEq,
      reduceCtorEq, false_and, and_false, false_or, or_false]
    try rw [Nat.mod_eq_of_lt hk0]
    try rw [Nat.mod_eq_of_lt hk]
    try rw [succMod hk0]
    try rw [succMod hk]
    first
    | exact not_false
    | split_ifs <;>
        first
          | omega
          | (simp only [and_false, false_and, or_false, false_or, and_true, true_and,
               iff_false, false_iff, iff_true, true_iff]
             omega)
          | simp only [and_false, false_and, or_false, false_or, iff_false, false_iff]
    | omega
  have hCl : ∀ k ∈ Finset.range N,
      (if hasEdge (symV N l0 k0) (symV N (l0 + 1) k0)
          (symV N (L - 1) k, symV N (L - 1) (k + 1), Sum.inr true) then (1 : ℕ) else 0) =
      (0 : ℕ) := by
    intro k hk
    rw [Finset.mem_range] at hk
    refine if_neg ?_
    simp only [hasEdge, symV, decide_eq_true_eq, Prod.mk.injEq, Sum.inl.injEq,
      reduceCtorEq, false_and, and_false, false_or, or_false]
    try rw [Nat.mod_eq_of_lt hk0]
    try rw [Nat.mod_eq_of_lt hk]
    try rw [succMod hk0]
    try rw [succMod hk]
    first
    | exact not_false
    | split_ifs <;>
        first
          | omega
          | (simp only [and_false, false_and, or_false, false_or, and_true, true_and,
               iff_false, false_iff, iff_true, true_iff]
             omega)
          | simp only [and_false, false_and, or_false, false_or, iff_false, false_iff]
    | omega
  have hside : (∑ l ∈ Finset.range (L - 1), ∑ k ∈ Finset.range N,
      ((if hasEdge (symV N l0 k0) (symV N (l0 + 1) k0)
          (symV N l k, symV N l (k + 1), symV N (l + 1) (k + 1)) then (1 : ℕ) else 0) +
       (if hasEdge (symV N l0 k0) (symV N (l0 + 1) k0)
          (symV N l k, symV N (l + 1) (k + 1), symV N (l + 1) k) then 1 else 0))) =
      (∑ l ∈ Finset.range (L - 1), ∑ k ∈ Finset.range N,
        ((if l = l0 ∧ (k + 1) % N = k0 then (1 : ℕ) else 0) +
         (if l = l0 ∧ k = k0 then 1 else 0))) :=
    Finset.sum_congr rfl (fun l hl => Finset.sum_congr rfl (fun k hk => by
      rw [hT1 l hl k hk, hT2 l hl k hk]))
  have hcap : (∑ k ∈ Finset.range N,
      ((if hasEdge (symV N l0 k0) (symV N (l0 + 1) k0)
          (symV N 0 (k + 1), symV N 0 k, Sum.inr false) then (1 : ℕ) else 0) +
       (if hasEdge (symV N l0 k0) (symV N (l0 + 1) k0)
          (symV N (L - 1) k, symV N (L - 1) (k + 1), Sum.inr true) then 1 else 0))) =
      (∑ k ∈ Finset.range N, ((0 : ℕ) + 0)) :=
    Finset.sum_congr rfl (fun k hk => by rw [hFl k hk, hCl k hk])
  rw [hside, hcap, double_sum_add, double_sum_ind_succmod (L - 1) N l0 k0 1 hk0,
    double_sum_ind (L - 1) N l0 k0 1 hk0]
  simp only [Nat.add_zero, Finset.sum_const_zero, Nat.zero_add]
  split_ifs <;>
        first
          | omega
          | (simp only [and_false, false_and, or_false, false_or, and_true, true_and,
               iff_false, false_iff, iff_true, true_iff]
             omega)
          | simp only [and_false, false_and, or_false, false_or, iff_false, false_iff]

theorem countD (L N l0 k0 : ℕ) (hL : 2 ≤ L) (hN : 3 ≤ N) (hl0 : l0 < L - 1)
    (hk0 : k0 < N) :
    edgeFaceCount (symFaces L N) (symV N l0 k0) (symV N (l0 + 1) (k0 + 1)) = 2 := by
  rw [symFaces, edgeFaceCount_meshFaces]
  have hT1 : ∀ l ∈ Finset.range (L - 1), ∀ k ∈ Finset.range N,
      (if hasEdge (symV N l0 k0) (symV N (l0 + 1) (k0 + 1))
          (symV N l k, symV N l (k + 1), symV N (l + 1) (k + 1)) then (1 : ℕ) else 0) =
      (if l = l0 ∧ k = k0 then 1 else 0) := by
    intro l hl k hk
    rw [Finset.mem_range] at hl hk
    refine if_congr ?_ rfl rfl
    simp only [hasEdge, symV, decide_eq_true_eq, Prod.mk.injEq, Sum.inl.injEq,
      reduceCtorEq, false_and, and_false, false_or, or_false]
    rw [Nat.mod_eq_of_lt hk0, Nat.mod_eq_of_lt hk, succMod hk0, succMod hk]
    split_ifs <;>
        first
          | omega
          | (simp only [and_false, false_and, or_false, false_or, and_true, true_and,
               iff_false, false_iff, iff_true, true_iff]
             omega)
          | simp only [and_false, false_and, or_false, false_or, iff_false, false_iff]
  have hT2 : ∀ l ∈ Finset.range (L - 1), ∀ k ∈ Finset.range N,
      (if hasEdge (symV N l0 k0) (symV N (l0 + 1) (k0 + 1))
          (symV N l k, symV N (l + 1) (k + 1), symV N (l + 1) k) then (1 : ℕ) else 0) =
      (if l = l0 ∧ k = k0 then 1 else 0) := by
    intro l hl k hk
    rw [Finset.mem_range] at hl hk
    refine if_congr ?_ rfl rfl
    simp only [hasEdge, symV, decide_eq_true_eq, Prod.mk.injEq, Sum.inl.injEq,
      reduceCtorEq, false_and, and_false, false_or, or_false]
    rw [Nat.mod_eq_of_lt hk0, Nat.mod_eq_of_lt hk, succMod hk0, succMod hk]
    split_ifs <;>
        first
          | omega
          | (simp only [and_false, false_and, or_false, false_or, and_true, true_and,
               iff_false, false_iff, iff_true, true_iff]
             omega)
          | simp only [and_false, false_and, or_false, false_or, iff_false, false_iff]
  have hFl : ∀ k ∈ Finset.range N,
      (if hasEdge (symV N l0 k0) (symV N (l0 + 1) (k0 + 1))
          (symV N 0 (k + 1), symV N 0 k, Sum.inr false) then (1 : ℕ) else 0) =
      (0 : ℕ) := by
    intro k hk
    rw [Finset.mem_range] at hk
    refine if_neg ?_
    simp only [hasEdge, symV, decide_eq_true_eq, Prod.mk.injEq, Sum.inl.injEq,
      reduceCtorEq, false_and, and_false, false_or, or_false]
    try rw [Nat.mod_eq_of_lt hk0]
    try rw [Nat.mod_eq_of_lt hk]
    try rw [succMod hk0]
    try rw [succMod hk]
    first
    | exact not_false
    | split_ifs <;>
        first
          | omega
          | (simp only [and_false, false_and, or_false, false_or, and_true, true_and,
               iff_false, false_iff, iff_true, true_iff]
             omega)
          | simp only [and_false, false_and, or_false, false_or, iff_false, false_iff]
    | omega
  have hCl : ∀ k ∈ Finset.range N,
      (if hasEdge (symV N l0 k0) (symV N (l0 + 1) (k0 + 1))
          (symV N (L - 1) k, symV N (L - 1) (k + 1), Sum.inr true) then (1 : ℕ) else 0) =
      (0 : ℕ) := by
    intro k hk
    rw [Finset.mem_range] at hk
    refine if_neg ?_
    simp only [hasEdge, symV, decide_eq_true_eq, Prod.mk.injEq, Sum.inl.injEq,
      reduceCtorEq, false_and, and_false, false_or, or_false]
    try rw [Nat.mod_eq_of_lt hk0]
    try rw [Nat.mod_eq_of_lt hk]
    try rw [succMod hk0]
    try rw [succMod hk]
    first
    | exact not_false
    | split_ifs <;>
        first
          | omega
          | (simp only [and_false, false_and, or_false, false_or, and_true, true_and,
               iff_false, false_iff, iff_true, true_iff]
             omega)
          | simp only [and_false, false_and, or_false, false_or, iff_false, false_iff]
    | omega
  have hside : (∑ l ∈ Finset.range (L - 1), ∑ k ∈ Finset.range N,
      ((if hasEdge (symV N l0 k0) (symV N (l0 + 1) (k0 + 1))
          (symV N l k, symV N l (k + 1), symV N (l + 1) (k + 1)) then (1 : ℕ) else 0) +
       (if hasEdge (symV N l0 k0) (symV N (l0 + 1) (k0 + 1))
          (symV N l k, symV N (l + 1) (k + 1), symV N (l + 1) k) then 1 else 0))) =
      (∑ l ∈ Finset.range (L - 1), ∑ k ∈ Finset.range N,
        ((if l = l0 ∧ k = k0 then (1 : ℕ) else 0) +
         (if l = l0 ∧ k = k0 then 1 else 0))) :=
    Finset.sum_congr rfl (fun l hl => Finset.sum_congr rfl (fun k hk => by
      rw [hT1 l hl k hk, hT2 l hl k hk]))
  have hcap : (∑ k ∈ Finset.range N,
      ((if hasEdge (symV N l0 k0) (symV N (l0 + 1) (k0 + 1))
          (symV N 0 (k + 1), symV N 0 k, Sum.inr false) then (1 : ℕ) else 0) +
       (if hasEdge (symV N l0 k0) (symV N (l0 + 1) (k0 + 1))
          (symV N (L - 1) k, symV N (L - 1) (k + 1), Sum.inr true) then 1 else 0))) =
      (∑ k ∈ Finset.range N, ((0 : ℕ) + 0)) :=
    Finset.sum_congr rfl (fun k hk => by rw [hFl k hk, hCl k hk])
  rw [hside, hcap, double_sum_add, double_sum_ind (L - 1) N l0 k0 1 hk0]
  simp only [Nat.add_zero, Finset.sum_const_zero, Nat.zero_add]
  split_ifs <;>
        first
          | omega
          | (simp only [and_false, false_and, or_false, false_or, and_true, true_and,
               iff_false, false_iff, iff_true, true_iff]
             omega)
          | simp only [and_false, false_and, or_false, false_or, iff_false, false_iff]
theorem single_sum_ind_two (B k0 j0 c : ℕ) (hk0 : k0 < B) (hj0 : j0 < B)
    (hne : k0 ≠ j0) :
    (∑ k ∈ Finset.range B, (if k = k0 ∨ k = j0 then c else 0)) = c + c := by
  have h : ∀ k ∈ Finset.range B, (if k = k0 ∨ k = j0 then c else 0) =
      ((if k = k0 then c else 0) + (if k = j0 then c else 0)) := by
    intro k _
    split_ifs <;> omega
  rw [Finset.sum_congr rfl h, Finset.sum_add_distrib, single_sum_ind B k0 c hk0,
    single_sum_ind B j0 c hj0]

theorem countSp0 (L N k0 : ℕ) (hL : 2 ≤ L) (hN : 3 ≤ N) (hk0 : k0 < N) :
    edgeFaceCount (symFaces L N) (symV N 0 k0) (Sum.inr false) = 2 := by
  rw [symFaces, edgeFaceCount_meshFaces]
  have hT1 : ∀ l ∈ Finset.range (L - 1), ∀ k ∈ Finset.range N,
      (if hasEdge (symV N 0 k0) (Sum.inr false)
          (symV N l k, symV N l (k + 1), symV N (l + 1) (k + 1)) then (1 : ℕ) else 0) =
      (0 : ℕ) := by
    intro l hl k hk
    refine if_neg ?_
    simp only [hasEdge, symV, decide_eq_true_eq, Prod.mk.injEq, Sum.inl.injEq,
      Sum.inr.injEq, reduceCtorEq, eq_self_iff_true, and_true, true_and,
      false_and, and_false, false_or, or_false]
    exact not_false
  have hT2 : ∀ l ∈ Finset.range (L - 1), ∀ k ∈ Finset.range N,
      (if hasEdge (symV N 0 k0) (Sum.inr false)
          (symV N l k, symV N (l + 1) (k + 1), symV N (l + 1) k) then (1 : ℕ) else 0) =
      (0 : ℕ) := by
    intro l hl k hk
    refine if_neg ?_
    simp only [hasEdge, symV, decide_eq_true_eq, Prod.mk.injEq, Sum.inl.injEq,
      Sum.inr.injEq, reduceCtorEq, eq_self_iff_true, and_true, true_and,
      false_and, and_false, false_or, or_false]
    exact not_false
  have hFl : ∀ k ∈ Finset.range N,
      (if hasEdge (symV N 0 k0) (Sum.inr false)
          (symV N 0 (k + 1), symV N 0 k, Sum.inr false) then (1 : ℕ) else 0) =
      (if k = k0 ∨ k = (if k0 = 0 then N - 1 else k0 - 1) then 1 else 0) := by
    intro k hk
    rw [Finset.mem_range] at hk
    refine if_congr ?_ rfl rfl
    simp only [hasEdge, symV, decide_eq_true_eq, Prod.mk.injEq, Sum.inl.injEq,
      Sum.inr.injEq, reduceCtorEq, eq_self_iff_true, and_true, true_and,
      false_and, and_false, false_or, or_false]
    rw [Nat.mod_eq_of_lt hk0, Nat.mod_eq_of_lt hk, succMod hk]
    split_ifs <;>
        first
          | omega
          | (simp only [and_false, false_and, or_false, false_or, and_true, true_and,
               iff_false, false_iff, iff_true, true_iff]
             omega)
          | simp only [and_false, false_and, or_false, false_or, iff_false, false_iff]
  have hCl : ∀ k ∈ Finset.range N,
      (if hasEdge (symV N 0 k0) (Sum.inr false)
          (symV N (L - 1) k, symV N (L - 1) (k + 1), Sum.inr true) then (1 : ℕ) else 0) =
      (0 : ℕ) := by
    intro k hk
    refine if_neg ?_
    simp only [hasEdge, symV, decide_eq_true_eq, Prod.mk.injEq, Sum.inl.injEq,
      Sum.inr.injEq, reduceCtorEq, eq_self_iff_true, and_true, true_and,
      false_and, and_false, false_or, or_false]
    exact not_false
  have hside : (∑ l ∈ Finset.range (L - 1), ∑ k ∈ Finset.range N,
      ((if hasEdge (symV N 0 k0) (Sum.inr false)
          (symV N l k, symV N l (k + 1), symV N (l + 1) (k + 1)) then (1 : ℕ) else 0) +
       (if hasEdge (symV N 0 k0) (Sum.inr false)
          (symV N l k, symV N (l + 1) (k + 1), symV N (l + 1) k) then 1 else 0))) =
      (∑ l ∈ Finset.range (L - 1), ∑ k ∈ Finset.range N, ((0 : ℕ) + 0)) :=
    Finset.sum_congr rfl (fun l hl => Finset.sum_congr rfl (fun k hk => by
      rw [hT1 l hl k hk, hT2 l hl k hk]))
  have hcap : (∑ k ∈ Finset.range N,
      ((if hasEdge (symV N 0 k0) (Sum.inr false)
          (symV N 0 (k + 1), symV N 0 k, Sum.inr false) then (1 : ℕ) else 0) +
       (if hasEdge (symV N 0 k0) (Sum.inr false)
          (symV N (L - 1) k, symV N (L - 1) (k + 1), Sum.inr true) then 1 else 0))) =
      (∑ k ∈ Finset.range N,
        ((if k = k0 ∨ k = (if k0 = 0 then N - 1 else k0 - 1) then (1 : ℕ) else 0) + 0)) :=
    Finset.sum_congr rfl (fun k hk => by rw [hFl k hk, hCl k hk])
  rw [hside, hcap]
  simp only [Nat.add_zero, Finset.sum_const_zero, Nat.zero_add]
  rw [single_sum_ind_two N k0 (if k0 = 0 then N - 1 else k0 - 1) 1 hk0
    (by split_ifs <;> omega) (by split_ifs <;> omega)]

theorem countSp1 (L N k0 : ℕ) (hL : 2 ≤ L) (hN : 3 ≤ N) (hk0 : k0 < N) :
    edgeFaceCount (symFaces L N) (symV N (L - 1) k0) (Sum.inr true) = 2 := by
  rw [symFaces, edgeFaceCount_meshFaces]
  have hT1 : ∀ l ∈ Finset.range (L - 1), ∀ k ∈ Finset.range N,
      (if hasEdge (symV N (L - 1) k0) (Sum.inr true)
          (symV N l k, symV N l (k + 1), symV N (l + 1) (k + 1)) then (1 : ℕ) else 0) =
      (0 : ℕ) := by
    intro l hl k hk
    refine if_neg ?_
    simp only [hasEdge, symV, decide_eq_true_eq, Prod.mk.injEq, Sum.inl.injEq,
      Sum.inr.injEq, reduceCtorEq, eq_self_iff_true, and_true, true_and,
      false_and, and_false, false_or, or_false]
    exact not_false
  have hT2 : ∀ l ∈ Finset.range (L - 1), ∀ k ∈ Finset.range N,
      (if hasEdge (symV N (L - 1) k0) (Sum.inr true)
          (symV N l k, symV N (l + 1) (k + 1), symV N (l + 1) k) then (1 : ℕ) else 0) =
      (0 : ℕ) := by
    intro l hl k hk
    refine if_neg ?_
    simp only [hasEdge, symV, decide_eq_true_eq, Prod.mk.injEq, Sum.inl.injEq,
      Sum.inr.injEq, reduceCtorEq, eq_self_iff_true, and_true, true_and,
      false_and, and_false, false_or, or_false]
    exact not_false
  have hFl : ∀ k ∈ Finset.range N,
      (if hasEdge (symV N (L - 1) k0) (Sum.inr true)
          (symV N 0 (k + 1), symV N 0 k, Sum.inr false) then (1 : ℕ) else 0) =
      (0 : ℕ) := by
    intro k hk
    refine if_neg ?_
    simp only [hasEdge, symV, decide_eq_true_eq, Prod.mk.injEq, Sum.inl.injEq,
      Sum.inr.injEq, reduceCtorEq, eq_self_iff_true, and_true, true_and,
      false_and, and_false, false_or, or_false]
    exact not_false
  have hCl : ∀ k ∈ Finset.range N,
      (if hasEdge (symV N (L - 1) k0) (Sum.inr true)
          (symV N (L - 1) k, symV N (L - 1) (k + 1), Sum.inr true) then (1 : ℕ) else 0) =
      (if k = k0 ∨ k = (if k0 = 0 then N - 1 else k0 - 1) then 1 else 0) := by
    intro k hk
    rw [Finset.mem_range] at hk
    refine if_congr ?_ rfl rfl
    simp only [hasEdge, symV, decide_eq_true_eq, Prod.mk.injEq, Sum.inl.injEq,
      Sum.inr.injEq, reduceCtorEq, eq_self_iff_true, and_true, true_and,
      false_and, and_false, false_or, or_false]
    rw [Nat.mod_eq_of_lt hk0, Nat.mod_eq_of_lt hk, succMod hk]
    split_ifs <;>
        first
          | omega
          | (simp only [and_false, false_and, or_false, false_or, and_true, true_and,
               iff_false, false_iff, iff_true, true_iff]
             omega)
          | simp only [and_false, false_and, or_false, false_or, iff_false, false_iff]
  have hside : (∑ l ∈ Finset.range (L - 1), ∑ k ∈ Finset.range N,
      ((if hasEdge (symV N (L - 1) k0) (Sum.inr true)
          (symV N l k, symV N l (k + 1), symV N (l + 1) (k + 1)) then (1 : ℕ) else 0) +
       (if hasEdge (symV N (L - 1) k0) (Sum.inr true)
          (symV N l k, symV N (l + 1) (k + 1), symV N (l + 1) k) then 1 else 0))) =
      (∑ l ∈ Finset.range (L - 1), ∑ k ∈ Finset.range N, ((0 : ℕ) + 0)) :=
    Finset.sum_congr rfl (fun l hl => Finset.sum_congr rfl (fun k hk => by
      rw [hT1 l hl k hk, hT2 l hl k hk]))
  have hcap : (∑ k ∈ Finset.range N,
      ((if hasEdge (symV N (L - 1) k0) (Sum.inr true)
          (symV N 0 (k + 1), symV N 0 k, Sum.inr false) then (1 : ℕ) else 0) +
       (if hasEdge (symV N (L - 1) k0) (Sum.inr true)
          (symV N (L - 1) k, symV N (L - 1) (k + 1), Sum.inr true) then 1 else 0))) =
      (∑ k ∈ Finset.range N,
        ((0 : ℕ) + (if k = k0 ∨ k = (if k0 = 0 then N - 1 else k0 - 1) then 1 else 0))) :=
    Finset.sum_congr rfl (fun k hk => by rw [hFl k hk, hCl k hk])
  rw [hside, hcap]
  simp only [Nat.add_zero, Finset.sum_const_zero, Nat.zero_add]
  rw [single_sum_ind_two N k0 (if k0 = 0 then N - 1 else k0 - 1) 1 hk0
    (by split_ifs <;> omega) (by split_ifs <;> omega)]
theorem mem_meshFaces {α : Type} (L N : ℕ) (f : ℕ → ℕ → α) (c0 c1 : α)
    (t : α × α × α) :
    t ∈ meshFaces L N f c0 c1 ↔
    ((∃ l, l < L - 1 ∧ ∃ k, k < N ∧
      (t = (f l k, f l (k + 1), f (l + 1) (k + 1)) ∨
       t = (f l k, f (l + 1) (k + 1), f (l + 1) k))) ∨
     (∃ k, k < N ∧
      (t = (f 0 (k + 1), f 0 k, c0) ∨ t = (f (L - 1) k, f (L - 1) (k + 1), c1)))) := by
  simp [meshFaces, sideFaces, capFaces, List.mem_flatMap, List.mem_range,
    List.mem_append]

/-- The symbolic face pattern is watertight for `N ≥ 3`: every edge it
uses lies in exactly two of its triangles. -/
theorem symFaces_watertight (L N : ℕ) (hL : 2 ≤ L) (hN : 3 ≤ N) :
    meshWatertight (symFaces L N) := by
  intro a b h
  obtain ⟨t, ht, he⟩ := h
  rw [symFaces, mem_meshFaces] at ht
  rcases ht with ⟨l, hl, k, hk, (rfl | rfl)⟩ | ⟨k, hk, (rfl | rfl)⟩
  · -- first side triangle of cell (l, k)
    simp only [hasEdge, decide_eq_true_eq] at he
    rcases he with ⟨rfl, rfl⟩ | ⟨rfl, rfl⟩ | ⟨rfl, rfl⟩ | ⟨rfl, rfl⟩ |
      ⟨rfl, rfl⟩ | ⟨rfl, rfl⟩
    · exact countH L N l k hL hN (by omega) hk
    · rw [edgeFaceCount_symm]
      exact countH L N l k hL hN (by omega) hk
    · rw [← symV_mod N l (k + 1), ← symV_mod N (l + 1) (k + 1)]
      exact countV L N l ((k + 1) % N) hL hN hl (Nat.mod_lt (k + 1) (by omega))
    · rw [edgeFaceCount_symm, ← symV_mod N l (k + 1), ← symV_mod N (l + 1) (k + 1)]
      exact countV L N l ((k + 1) % N) hL hN hl (Nat.mod_lt (k + 1) (by omega))
    · exact countD L N l k hL hN hl hk
    · rw [edgeFaceCount_symm]
      exact countD L N l k hL hN hl hk
  · -- second side triangle of cell (l, k)
    simp only [hasEdge, decide_eq_true_eq] at he
    rcases he with ⟨rfl, rfl⟩ | ⟨rfl, rfl⟩ | ⟨rfl, rfl⟩ | ⟨rfl, rfl⟩ |
      ⟨rfl, rfl⟩ | ⟨rfl, rfl⟩
    · exact countD L N l k hL hN hl hk
    · rw [edgeFaceCount_symm]
      exact countD L N l k hL hN hl hk
    · rw [edgeFaceCount_symm]
      exact countH L N (l + 1) k hL hN (by omega) hk
    · exact countH L N (l + 1) k hL hN (by omega) hk
    · exact countV L N l k hL hN hl hk
    · rw [edgeFaceCount_symm]
      exact countV L N l k hL hN hl hk
  · -- floor fan triangle at k
    simp only [hasEdge, decide_eq_true_eq] at he
    rcases he with ⟨rfl, rfl⟩ | ⟨rfl, rfl⟩ | ⟨rfl, rfl⟩ | ⟨rfl, rfl⟩ |
      ⟨rfl, rfl⟩ | ⟨rfl, rfl⟩
    · rw [edgeFaceCount_symm]
      exact countH L N 0 k hL hN (by omega) hk
    · exact countH L N 0 k hL hN (by omega) hk
    · exact countSp0 L N k hL hN hk
    · rw [edgeFaceCount_symm]
      exact countSp0 L N k hL hN hk
    · rw [← symV_mod N 0 (k + 1)]
      exact countSp0 L N ((k + 1) % N) hL hN (Nat.mod_lt (k + 1) (by omega))
    · rw [edgeFaceCount_symm, ← symV_mod N 0 (k + 1)]
      exact countSp0 L N ((k + 1) % N) hL hN (Nat.mod_lt (k + 1) (by omega))
  · -- ceiling fan triangle at k
    simp only [hasEdge, decide_eq_true_eq] at he
    rcases he with ⟨rfl, rfl⟩ | ⟨rfl, rfl⟩ | ⟨rfl, rfl⟩ | ⟨rfl, rfl⟩ |
      ⟨rfl, rfl⟩ | ⟨rfl, rfl⟩
    · exact countH L N (L - 1) k hL hN (by omega) hk
    · rw [edgeFaceCount_symm]
      exact countH L N (L - 1) k hL hN (by omega) hk
    · rw [← symV_mod N (L - 1) (k + 1)]
      exact countSp1 L N ((k + 1) % N) hL hN (Nat.mod_lt (k + 1) (by omega))
    · rw [edgeFaceCount_symm, ← symV_mod N (L - 1) (k + 1)]
      exact countSp1 L N ((k + 1) % N) hL hN (Nat.mod_lt (k + 1) (by omega))
    · exact countSp1 L N k hL hN hk
    · rw [edgeFaceCount_symm]
      exact countSp1 L N k hL hN hk
/-! ### Transport of watertightness along injective vertex maps -/

/-- Apply a vertex map to all three corners of a triangle. -/
def faceMap {α β : Type} (g : α → β) (t : α × α × α) : β × β × β :=
  (g t.1, g t.2.1, g t.2.2)

/-- All vertices (corner occurrences) of a face list. -/
def faceSupp {α : Type} (faces : List (α × α × α)) : List α :=
  faces.flatMap (fun t => [t.1, t.2.1, t.2.2])

theorem mem_faceSupp {α : Type} (faces : List (α × α × α)) (x : α) :
    x ∈ faceSupp faces ↔ ∃ t ∈ faces, x = t.1 ∨ x = t.2.1 ∨ x = t.2.2 := by
  simp only [faceSupp, List.mem_flatMap, List.mem_cons, List.not_mem_nil, or_false]

theorem hasEdge_faceMap {α β : Type} [DecidableEq α] [DecidableEq β]
    (g : α → β) (x y : α) (s : α × α × α)
    (h1 : g x = g s.1 ↔ x = s.1) (h2 : g y = g s.2.1 ↔ y = s.2.1)
    (h3 : g y = g s.1 ↔ y = s.1) (h4 : g x = g s.2.1 ↔ x = s.2.1)
    (h5 : g x = g s.2.2 ↔ x = s.2.2) (h6 : g y = g s.2.2 ↔ y = s.2.2) :
    hasEdge (g x) (g y) (faceMap g s) = hasEdge x y s := by
  simp only [hasEdge, faceMap, decide_eq_decide]
  rw [h1, h2, h3, h4, h5, h6]

theorem edgeFaceCount_map {α β : Type} [DecidableEq α] [DecidableEq β]
    (faces : List (α × α × α)) (g : α → β) (x y : α)
    (hx : x ∈ faceSupp faces) (hy : y ∈ faceSupp faces)
    (hinj : ∀ u ∈ faceSupp faces, ∀ v ∈ faceSupp faces, g u = g v → u = v) :
    edgeFaceCount (faces.map (faceMap g)) (g x) (g y) = edgeFaceCount faces x y := by
  unfold edgeFaceCount
  rw [List.countP_map]
  apply List.countP_congr
  intro s hs
  have hs1 : s.1 ∈ faceSupp faces :=
    (mem_faceSupp faces s.1).mpr ⟨s, hs, Or.inl rfl⟩
  have hs21 : s.2.1 ∈ faceSupp faces :=
    (mem_faceSupp faces s.2.1).mpr ⟨s, hs, Or.inr (Or.inl rfl)⟩
  have hs22 : s.2.2 ∈ faceSupp faces :=
    (mem_faceSupp faces s.2.2).mpr ⟨s, hs, Or.inr (Or.inr rfl)⟩
  have hiff : ∀ u ∈ faceSupp faces, ∀ v ∈ faceSupp faces, (g u = g v ↔ u = v) :=
    fun u hu v hv => ⟨hinj u hu v hv, fun h => by rw [h]⟩
  have heq : (hasEdge (g x) (g y) ∘ faceMap g) s = hasEdge x y s :=
    hasEdge_faceMap g x y s (hiff x hx s.1 hs1) (hiff y hy s.2.1 hs21)
      (hiff y hy s.1 hs1) (hiff x hx s.2.1 hs21) (hiff x hx s.2.2 hs22)
      (hiff y hy s.2.2 hs22)
  rw [heq]

/-- Watertightness is preserved by relabelling the vertices with a map
that is injective on the vertices the face list uses. -/
theorem meshWatertight_map {α β : Type} [DecidableEq α] [DecidableEq β]
    (faces : List (α × α × α)) (g : α → β)
    (hinj : ∀ u ∈ faceSupp faces, ∀ v ∈ faceSupp faces, g u = g v → u = v)
    (hw : meshWatertight faces) :
    meshWatertight (faces.map (faceMap g)) := by
  intro a b h
  obtain ⟨t', ht', he'⟩ := h
  obtain ⟨t, ht, rfl⟩ := List.mem_map.mp ht'
  have h1 : t.1 ∈ faceSupp faces :=
    (mem_faceSupp faces t.1).mpr ⟨t, ht, Or.inl rfl⟩
  have h21 : t.2.1 ∈ faceSupp faces :=
    (mem_faceSupp faces t.2.1).mpr ⟨t, ht, Or.inr (Or.inl rfl)⟩
  have h22 : t.2.2 ∈ faceSupp faces :=
    (mem_faceSupp faces t.2.2).mpr ⟨t, ht, Or.inr (Or.inr rfl)⟩
  simp only [hasEdge, faceMap, decide_eq_true_eq] at he'
  rcases he' with ⟨rfl, rfl⟩ | ⟨rfl, rfl⟩ | ⟨rfl, rfl⟩ | ⟨rfl, rfl⟩ |
    ⟨rfl, rfl⟩ | ⟨rfl, rfl⟩
  · rw [edgeFaceCount_map faces g t.1 t.2.1 h1 h21 hinj]
    exact hw t.1 t.2.1 ⟨t, ht, by simp [hasEdge]⟩
  · rw [edgeFaceCount_map faces g t.2.1 t.1 h21 h1 hinj]
    exact hw t.2.1 t.1 ⟨t, ht, by simp [hasEdge]⟩
  · rw [edgeFaceCount_map faces g t.2.1 t.2.2 h21 h22 hinj]
    exact hw t.2.1 t.2.2 ⟨t, ht, by simp [hasEdge]⟩
  · rw [edgeFaceCount_map faces g t.2.2 t.2.1 h22 h21 hinj]
    exact hw t.2.2 t.2.1 ⟨t, ht, by simp [hasEdge]⟩
  · rw [edgeFaceCount_map faces g t.1 t.2.2 h1 h22 hinj]
    exact hw t.1 t.2.2 ⟨t, ht, by simp [hasEdge]⟩
  · rw [edgeFaceCount_map faces g t.2.2 t.1 h22 h1 hinj]
    exact hw t.2.2 t.1 ⟨t, ht, by simp [hasEdge]⟩
theorem flatMap_congr' {α β : Type} {l : List α} {f g : α → List β}
    (h : ∀ a ∈ l, f a = g a) : l.flatMap f = l.flatMap g := by
  induction l with
  | nil => rfl
  | cons a rest ih =>
    rw [List.flatMap_cons, List.flatMap_cons, h a (List.mem_cons_self a rest),
      ih (fun b hb => h b (List.mem_cons_of_mem a hb))]

theorem meshFaces_map {α β : Type} (L N : ℕ) (f : ℕ → ℕ → α) (c0 c1 : α)
    (g : α → β) :
    (meshFaces L N f c0 c1).map (faceMap g) =
      meshFaces L N (fun l k => g (f l k)) (g c0) (g c1) := by
  simp only [meshFaces, sideFaces, capFaces, List.map_append, List.map_flatMap,
    List.map_cons, List.map_nil, faceMap]

theorem meshFaces_congr {α : Type} (L N : ℕ) (f f' : ℕ → ℕ → α) (c0 c1 : α)
    (h : ∀ l k, k ≤ N → f l k = f' l k) :
    meshFaces L N f c0 c1 = meshFaces L N f' c0 c1 := by
  unfold meshFaces sideFaces capFaces
  congr 1
  · refine flatMap_congr' (fun l hl => ?_)
    refine flatMap_congr' (fun k hk => ?_)
    rw [List.mem_range] at hk
    rw [h l k (by omega), h l (k + 1) (by omega), h (l + 1) (k + 1) (by omega),
      h (l + 1) k (by omega)]
  · refine flatMap_congr' (fun k hk => ?_)
    rw [List.mem_range] at hk
    rw [h 0 k (by omega), h 0 (k + 1) (by omega), h (L - 1) k (by omega),
      h (L - 1) (k + 1) (by omega)]

/-- The loop-closing duplicate: each `geargeometry` row repeats its first
point at position `N`, so indexing wraps from `N` back to `0`. -/
theorem wrap_getD {α : Type} (P : List α) (d : α) (n : ℕ) (hp : 0 < P.length)
    (hn : n = P.length) :
    (P ++ [P.headD d]).getD n d = (P ++ [P.headD d]).getD 0 d := by
  subst hn
  have hL : (P ++ [P.headD d]).getD P.length d = P.headD d := by
    rw [List.getD_append_right P [P.headD d] d P.length (le_refl P.length),
      Nat.sub_self]
    rfl
  have hR : (P ++ [P.headD d]).getD 0 d = P.headD d := by
    rw [List.getD_append P [P.headD d] d 0 hp]
    cases P with
    | nil => rw [List.length_nil] at hp; omega
    | cons a rest => rfl
  rw [hL, hR]

/-- The loop-closing duplicate: each `geargeometry` row repeats its first
point at position `N`, so indexing wraps from `N` back to `0`. -/
theorem gearPoint_wrap (M : pymath) (innerrad outerrad : ℚ) (teeth : ℕ)
    (thickness : ℚ) (toothfunc : Option (ℚ → ℚ)) (toothpts : ℕ)
    (anglefunc : Option (ℚ → ℚ)) (vlayers : ℕ) (l : ℕ)
    (hN : 1 ≤ teeth * toothpts) :
    gearPoint M innerrad outerrad teeth thickness toothfunc toothpts anglefunc
        vlayers l (gearProfile M innerrad outerrad teeth toothpts toothfunc).length =
      gearPoint M innerrad outerrad teeth thickness toothfunc toothpts anglefunc
        vlayers l 0 := by
  unfold gearPoint
  by_cases hl : l < effLayers anglefunc vlayers
  · have hlen : l < (gearGeometry M innerrad outerrad teeth thickness toothfunc
        toothpts anglefunc vlayers).length := by
      rw [gearGeometry_length]; exact hl
    rw [List.getD_eq_getElem _ _ hlen]
    simp only [gearGeometry, List.getElem_map, List.getElem_range]
    apply wrap_getD
    · rw [List.length_map, List.length_range, gearProfile_length]
      omega
    · rw [List.length_map, List.length_range]
  · have hrow : (gearGeometry M innerrad outerrad teeth thickness toothfunc
        toothpts anglefunc vlayers).getD l [] = [] := by
      rw [List.getD_eq_default]
      rw [gearGeometry_length]
      omega
    rw [hrow]
    simp

/-- Every symbolic vertex used by `symFaces` is a grid point with
in-range coordinates or one of the two axis centers. -/
theorem symFaces_supp_char (L N : ℕ) (hN : 1 ≤ N) (u : (ℕ × ℕ) ⊕ Bool)
    (hu : u ∈ faceSupp (symFaces L N)) :
    (∃ l k, l ≤ L - 1 ∧ k < N ∧ u = Sum.inl (l, k)) ∨
      u = Sum.inr false ∨ u = Sum.inr true := by
  obtain ⟨t, ht, hcomp⟩ := (mem_faceSupp _ u).mp hu
  rw [symFaces, mem_meshFaces] at ht
  rcases ht with ⟨l, hl, k, hk, hf | hf⟩ | ⟨k, hk, hf | hf⟩ <;> subst hf <;>
    rcases hcomp with rfl | rfl | rfl <;>
    first
      | exact Or.inl ⟨l, k % N, by omega, Nat.mod_lt _ (by omega), rfl⟩
      | exact Or.inl ⟨l, (k + 1) % N, by omega, Nat.mod_lt _ (by omega), rfl⟩
      | exact Or.inl ⟨l + 1, (k + 1) % N, by omega, Nat.mod_lt _ (by omega), rfl⟩
      | exact Or.inl ⟨l + 1, k % N, by omega, Nat.mod_lt _ (by omega), rfl⟩
      | exact Or.inl ⟨0, (k + 1) % N, by omega, Nat.mod_lt _ (by omega), rfl⟩
      | exact Or.inl ⟨0, k % N, by omega, Nat.mod_lt _ (by omega), rfl⟩
      | exact Or.inl ⟨L - 1, k % N, by omega, Nat.mod_lt _ (by omega), rfl⟩
      | exact Or.inl ⟨L - 1, (k + 1) % N, by omega, Nat.mod_lt _ (by omega), rfl⟩
      | exact Or.inr (Or.inl rfl)
      | exact Or.inr (Or.inr rfl)
/-- Decode a symbolic vertex to its concrete coordinate triple. -/
def symDec (gpt : ℕ → ℕ → ℚ × ℚ × ℚ) (c0 c1 : ℚ × ℚ × ℚ) :
    (ℕ × ℕ) ⊕ Bool → ℚ × ℚ × ℚ
  | Sum.inl lk => gpt lk.1 lk.2
  | Sum.inr false => c0
  | Sum.inr true => c1

theorem faceMap_comp {α β γ : Type} (g : β → γ) (f : α → β) :
    (faceMap g) ∘ (faceMap f) = faceMap (g ∘ f) :=
  funext fun _ => rfl

theorem map_idx_eq_faceMap (cr : ℕ) (V : List (ℚ × ℚ × ℚ))
    (cs : List ((ℚ × ℚ × ℚ) × (ℚ × ℚ × ℚ) × (ℚ × ℚ × ℚ))) :
    cs.map (fun c => (listIndex (roundPoint cr c.1) V,
      listIndex (roundPoint cr c.2.1) V, listIndex (roundPoint cr c.2.2) V)) =
    cs.map (faceMap (fun p => listIndex (roundPoint cr p) V)) := rfl

/-- When the point table wraps (`gpt l N = gpt l 0`), the generator's
concrete face list is the symbolic pattern relabelled by `symDec`. -/
theorem meshFaces_eq_symMap (L N : ℕ) (gpt : ℕ → ℕ → ℚ × ℚ × ℚ)
    (c0 c1 : ℚ × ℚ × ℚ) (hN : 1 ≤ N) (hwrap : ∀ l, gpt l N = gpt l 0) :
    meshFaces L N gpt c0 c1 =
      (symFaces L N).map (faceMap (symDec gpt c0 c1)) := by
  rw [symFaces, meshFaces_map]
  have hc0 : symDec gpt c0 c1 (Sum.inr false) = c0 := rfl
  have hc1 : symDec gpt c0 c1 (Sum.inr true) = c1 := rfl
  rw [hc0, hc1]
  refine meshFaces_congr L N _ _ c0 c1 (fun l k hk => ?_)
  show gpt l k = gpt l (k % N)
  by_cases hkN : k = N
  · subst hkN
    rw [Nat.mod_self]
    exact hwrap l
  · rw [Nat.mod_eq_of_lt (by omega)]

/-- Feeding the stitching pattern to a fresh single-sided builder yields
a watertight face list, provided `N ≥ 3`, the point table wraps, and no
two distinct logical vertices collapse to the same rounded triple. -/
theorem runMesh_watertight (cr L N : ℕ) (gpt : ℕ → ℕ → ℚ × ℚ × ℚ)
    (c0 c1 : ℚ × ℚ × ℚ) (hL : 2 ≤ L) (hN : 3 ≤ N)
    (hwrap : ∀ l, gpt l N = gpt l 0)
    (hgrid : ∀ l1 < L, ∀ k1 < N, ∀ l2 < L, ∀ k2 < N,
      roundPoint cr (gpt l1 k1) = roundPoint cr (gpt l2 k2) →
      l1 = l2 ∧ k1 = k2)
    (hcen0 : ∀ l < L, ∀ k < N, roundPoint cr (gpt l k) ≠ roundPoint cr c0)
    (hcen1 : ∀ l < L, ∀ k < N, roundPoint cr (gpt l k) ≠ roundPoint cr c1)
    (hcc : roundPoint cr c0 ≠ roundPoint cr c1) :
    meshWatertight ((runFaceCalls (wavefront.init false cr)
      (meshFaces L N gpt c0 c1)).faces) := by
  rw [meshFaces_eq_symMap L N gpt c0 c1 (by omega) hwrap]
  obtain ⟨hwf, hcr, hdf, hpre, hmem, hfaces⟩ :=
    runFaceCalls_spec ((symFaces L N).map (faceMap (symDec gpt c0 c1)))
      (wavefront.init false cr) (wfInv_init false cr) rfl
  rw [hfaces, show (wavefront.init false cr).faces = [] from rfl,
    List.nil_append, show (wavefront.init false cr).crounding = cr from rfl,
    map_idx_eq_faceMap, List.map_map, faceMap_comp]
  refine meshWatertight_map _ _ ?_ (symFaces_watertight L N hL hN)
  intro u hu v hv huv
  have hmemV : ∀ x ∈ faceSupp (symFaces L N),
      roundPoint cr (symDec gpt c0 c1 x) ∈
        (runFaceCalls (wavefront.init false cr)
          ((symFaces L N).map (faceMap (symDec gpt c0 c1)))).vertices := by
    intro x hx
    obtain ⟨t, ht, hcomp⟩ := (mem_faceSupp _ x).mp hx
    have htc := List.mem_map_of_mem (faceMap (symDec gpt c0 c1)) ht
    have h3 := hmem (faceMap (symDec gpt c0 c1) t) htc
    rcases hcomp with rfl | rfl | rfl
    · exact h3.1
    · exact h3.2.1
    · exact h3.2.2
  have hround : roundPoint cr (symDec gpt c0 c1 u) =
      roundPoint cr (symDec gpt c0 c1 v) :=
    listIndex_inj hwf.1 (hmemV u hu) (hmemV v hv) huv
  rcases symFaces_supp_char L N (by omega) u hu with ⟨l1, k1, hl1, hk1, rfl⟩ | rfl | rfl <;>
    rcases symFaces_supp_char L N (by omega) v hv with ⟨l2, k2, hl2, hk2, rfl⟩ | rfl | rfl
  · obtain ⟨h1, h2⟩ := hgrid l1 (by omega) k1 hk1 l2 (by omega) k2 hk2 hround
    rw [h1, h2]
  · exact absurd hround (hcen0 l1 (by omega) k1 hk1)
  · exact absurd hround (hcen1 l1 (by omega) k1 hk1)
  · exact absurd hround.symm (hcen0 l2 (by omega) k2 hk2)
  · rfl
  · exact absurd hround hcc
  · exact absurd hround.symm (hcen1 l2 (by omega) k2 hk2)
  · exact absurd hround.symm hcc
  · rfl
/-- C2 (corrected): watertightness of the generated gear mesh.  The
original claim, quantified over all `teeth ≥ 1`, `toothpts ≥ 1`, fails
for `teeth * toothpts < 3` (see the counterexample below); with the
amended bound `teeth * toothpts ≥ 3`, at least two effective layers, and
the claim's own no-collapse condition (no two logical vertices — grid
points of the stitched range plus the two axis centers — rounding to
the same triple), every edge of the face list built by `gear3dgen`
belongs to exactly two faces. -/
theorem gear_mesh_watertight (M : pymath) (innerrad outerrad : ℚ) (teeth : ℕ)
    (thickness : ℚ) (toothfunc : Option (ℚ → ℚ)) (toothpts : ℕ)
    (anglefunc : Option (ℚ → ℚ)) (vlayers : ℕ) (xyrounding : ℕ)
    (hN : 3 ≤ teeth * toothpts) (hL : 2 ≤ effLayers anglefunc vlayers)
    (hgrid : ∀ l1 < effLayers anglefunc vlayers, ∀ k1 < teeth * toothpts,
      ∀ l2 < effLayers anglefunc vlayers, ∀ k2 < teeth * toothpts,
      roundPoint xyrounding (gearPoint M innerrad outerrad teeth thickness
        toothfunc toothpts anglefunc vlayers l1 k1) =
        roundPoint xyrounding (gearPoint M innerrad outerrad teeth thickness
          toothfunc toothpts anglefunc vlayers l2 k2) → l1 = l2 ∧ k1 = k2)
    (hcen0 : ∀ l < effLayers anglefunc vlayers, ∀ k < teeth * toothpts,
      roundPoint xyrounding (gearPoint M innerrad outerrad teeth thickness
        toothfunc toothpts anglefunc vlayers l k) ≠
        roundPoint xyrounding ((0 : ℚ), (0 : ℚ), (0 : ℚ)))
    (hcen1 : ∀ l < effLayers anglefunc vlayers, ∀ k < teeth * toothpts,
      roundPoint xyrounding (gearPoint M innerrad outerrad teeth thickness
        toothfunc toothpts anglefunc vlayers l k) ≠
        roundPoint xyrounding ((0 : ℚ), (0 : ℚ), thickness))
    (hcc : roundPoint xyrounding ((0 : ℚ), (0 : ℚ), (0 : ℚ)) ≠
      roundPoint xyrounding ((0 : ℚ), (0 : ℚ), thickness)) :
    meshWatertight ((gearObject M innerrad outerrad teeth thickness toothfunc
      toothpts anglefunc vlayers xyrounding).faces) := by
  rw [gearObject_eq_run, gearProfile_length]
  exact runMesh_watertight xyrounding (effLayers anglefunc vlayers)
    (teeth * toothpts)
    (gearPoint M innerrad outerrad teeth thickness toothfunc toothpts anglefunc
      vlayers) _ _ hL hN
    (fun l => by
      rw [← gearProfile_length M innerrad outerrad teeth toothpts toothfunc]
      exact gearPoint_wrap M innerrad outerrad teeth thickness toothfunc toothpts
        anglefunc vlayers l (by omega))
    hgrid hcen0 hcen1 hcc
set_option synthInstance.maxSize 4000 in
/-- Witness for the corrected C2 at a concrete input: a 3-point flat
gear (`teeth = 3`, `toothpts = 1`, constant tooth function) with all
no-collapse hypotheses checked by computation. -/
theorem gear_mesh_watertight_witness :
    meshWatertight ((gearObject pymathTest 2 4 3 5 (some (fun _ => (1 : ℚ) / 2)) 1
      none 32 3).faces) :=
  gear_mesh_watertight pymathTest 2 4 3 5 (some (fun _ => (1 : ℚ) / 2)) 1 none 32 3
    (by decide!) (by decide!) (by decide!) (by decide!) (by decide!) (by decide!)

set_option synthInstance.maxSize 4000 in
/-- Counterexample to the original C2: with `teeth = 1`, `toothpts = 1`
(allowed by the claim, which only requires both to be at least 1), all
the claim's validity conditions hold — radii ordered, thickness
positive, no two generated points collapsing after rounding apart from
the loop-closing duplicates — yet the edge between vertex 0 (the single
rim point of the bottom layer) and vertex 2 (the floor center) lies in
exactly one face, so the mesh is not watertight. -/
theorem gear_mesh_watertight_counterexample :
    (0 : ℚ) < 2 ∧ (2 : ℚ) < 4 ∧ (0 : ℚ) < 5 ∧
    (∀ l1 < effLayers none 32, ∀ k1 < 1 * 1,
      ∀ l2 < effLayers none 32, ∀ k2 < 1 * 1,
      roundPoint 3 (gearPoint pymathTest 2 4 1 5 (some (fun _ => (1 : ℚ) / 2)) 1
        none 32 l1 k1) =
        roundPoint 3 (gearPoint pymathTest 2 4 1 5 (some (fun _ => (1 : ℚ) / 2)) 1
          none 32 l2 k2) → l1 = l2 ∧ k1 = k2) ∧
    (∀ l < effLayers none 32, ∀ k < 1 * 1,
      roundPoint 3 (gearPoint pymathTest 2 4 1 5 (some (fun _ => (1 : ℚ) / 2)) 1
        none 32 l k) ≠ roundPoint 3 ((0 : ℚ), (0 : ℚ), (0 : ℚ))) ∧
    (∀ l < effLayers none 32, ∀ k < 1 * 1,
      roundPoint 3 (gearPoint pymathTest 2 4 1 5 (some (fun _ => (1 : ℚ) / 2)) 1
        none 32 l k) ≠ roundPoint 3 ((0 : ℚ), (0 : ℚ), (5 : ℚ))) ∧
    roundPoint 3 ((0 : ℚ), (0 : ℚ), (0 : ℚ)) ≠ roundPoint 3 ((0 : ℚ), (0 : ℚ), (5 : ℚ)) ∧
    (∃ t ∈ (gearObject pymathTest 2 4 1 5 (some (fun _ => (1 : ℚ) / 2)) 1 none 32
      3).faces, hasEdge 0 2 t = true) ∧
    edgeFaceCount ((gearObject pymathTest 2 4 1 5 (some (fun _ => (1 : ℚ) / 2)) 1
      none 32 3).faces) 0 2 = 1 := by
  refine ⟨by norm_num, by norm_num, by norm_num, by decide!, by decide!,
    by decide!, by decide!, by decide!, by decide!⟩
